import Mathlib

/-!
Verification development for the RustChain weekly node/miner scan
(scripts/node_miner_weekly_scan.py).

The Python source is shallowly embedded below.  Pure functions become Lean
functions; operations that can raise a Python ValueError return
`Except String`.  Python strings are modelled as Lean `String`/`List Char`
restricted to ASCII content (the NFKC netloc check of urllib, which can only
fire on non-ASCII input, is therefore not modelled).  The model of
`urllib.parse.urlsplit` follows CPython 3.11, except that the content
validation of a bracketed IPv6 host (CPython 3.11 `_check_bracketed_host`) is
not modelled; only the bracket mismatch check, present in every supported
CPython version, is.  No claim below involves a bracketed host.
-/

namespace RustChainScan

/-- Python whitespace characters stripped by str.strip with no argument
(ASCII part). -/
def pyWS (c : Char) : Bool :=
  c = ' ' ∨ c = '\t' ∨ c = '\n' ∨ c = '\r' ∨ c = '\x0b' ∨ c = '\x0c'

/-- Characters removed from the left of a URL by urlsplit (WHATWG C0 control
or space). -/
def c0OrSpace (c : Char) : Bool := c.toNat ≤ 32

/-- Characters removed everywhere in a URL by urlsplit (unsafe URL bytes). -/
def tabCrLf (c : Char) : Bool := c = '\t' ∨ c = '\r' ∨ c = '\n'

/-- ASCII lowercasing of one character, as Python str.lower on ASCII. -/
def lowerChar (c : Char) : Char :=
  if 'A' ≤ c ∧ c ≤ 'Z' then Char.ofNat (c.toNat + 32) else c

/-- Characters allowed in a URL scheme by urllib (scheme_chars). -/
def schemeChar (c : Char) : Bool :=
  c.isAlpha ∨ c.isDigit ∨ c = '+' ∨ c = '-' ∨ c = '.'

/-- Characters that do not end the netloc part of a URL. -/
def netlocChar (c : Char) : Bool := ¬ (c = '/' ∨ c = '?' ∨ c = '#')

/-- Python str.strip with no argument (ASCII whitespace model). -/
def pyStripChars (l : List Char) : List Char :=
  ((l.dropWhile pyWS).reverse.dropWhile pyWS).reverse

/-- Python str.strip on Lean strings. -/
def pyStrip (s : String) : String := String.mk (pyStripChars s.data)

/-- Split a list at the first occurrence of a character, dropping the
separator; if the character is absent the second component is empty.  This is
Python str.split(c, 1) fused with the presence test urllib performs. -/
def splitOnce (l : List Char) (c : Char) : List Char × List Char :=
  (l.takeWhile (fun x => x ≠ c), (l.dropWhile (fun x => x ≠ c)).drop 1)

/-- Substring test, as the Python `in` operator on strings. -/
def hasSubstr (l pat : List Char) : Bool :=
  match l with
  | [] => pat = []
  | _ :: rest => pat.isPrefixOf l ∨ hasSubstr rest pat

/-- Result of urllib.parse.urlparse: scheme, netloc, path, params, query and
fragment components. -/
structure ParseResult where
  scheme : List Char
  netloc : List Char
  path : List Char
  params : List Char
  query : List Char
  fragment : List Char
deriving Repr, DecidableEq

/-- Model of CPython 3.11 urllib.parse.urlsplit (allow_fragments=True), with
params left empty.  Raises exactly on a netloc containing one bracket
character without its partner (Invalid IPv6 URL); the additional content
validation of a matched bracketed host is not modelled, see the file
header. -/
def urlsplit (input : List Char) : Except String ParseResult :=
  let url0 := (input.dropWhile c0OrSpace).filter (fun c => ¬ tabCrLf c)
  let pre := url0.takeWhile (fun c => c ≠ ':')
  let schemeUrl :=
    if url0.any (fun c => c = ':') ∧ pre ≠ [] ∧ pre.all schemeChar ∧
        (pre.take 1).all Char.isAlpha then
      (pre.map lowerChar, (url0.dropWhile (fun c => c ≠ ':')).drop 1)
    else (([] : List Char), url0)
  let rest := schemeUrl.2
  let netRest :=
    if rest.take 2 = ['/', '/'] then
      ((rest.drop 2).takeWhile netlocChar, (rest.drop 2).dropWhile netlocChar)
    else (([] : List Char), rest)
  if (decide ('[' ∈ netRest.1)) ≠ (decide (']' ∈ netRest.1)) then
    Except.error "Invalid IPv6 URL"
  else
    let fr := splitOnce netRest.2 '#'
    let pq := splitOnce fr.1 '?'
    Except.ok ⟨schemeUrl.1, netRest.1, pq.1, [], pq.2, fr.2⟩

/-- Model of urllib.parse._splitparams: split params off the last path
segment. -/
def splitparams (p : List Char) : List Char × List Char :=
  if '/' ∈ p then
    let suffix := (p.reverse.takeWhile (fun c => c ≠ '/')).reverse
    if ';' ∈ suffix then
      (p.take (p.length - suffix.length) ++ suffix.takeWhile (fun c => c ≠ ';'),
       (suffix.dropWhile (fun c => c ≠ ';')).drop 1)
    else (p, [])
  else
    (p.takeWhile (fun c => c ≠ ';'), (p.dropWhile (fun c => c ≠ ';')).drop 1)

/-- Model of urllib.parse.urlparse: urlsplit plus the params split. -/
def urlparse (u : List Char) : Except String ParseResult :=
  match urlsplit u with
  | Except.error e => Except.error e
  | Except.ok r =>
    if ';' ∈ r.path then
      let sp := splitparams r.path
      Except.ok ⟨r.scheme, r.netloc, sp.1, sp.2, r.query, r.fragment⟩
    else Except.ok r

/-- Part of a netloc after the last at sign, as netloc.rpartition of the at
sign; the whole netloc when no at sign is present. -/
def afterLastAt (l : List Char) : List Char :=
  (l.reverse.takeWhile (fun c => c ≠ '@')).reverse

/-- Model of SplitResult._hostinfo: raw hostname and port strings of a
netloc. -/
def hostPort (netloc : List Char) : List Char × List Char :=
  let hi := afterLastAt netloc
  if '[' ∈ hi then
    let bracketed := (hi.dropWhile (fun c => c ≠ '[')).drop 1
    let afterBr := (bracketed.dropWhile (fun c => c ≠ ']')).drop 1
    (bracketed.takeWhile (fun c => c ≠ ']'),
     (afterBr.dropWhile (fun c => c ≠ ':')).drop 1)
  else
    (hi.takeWhile (fun c => c ≠ ':'), (hi.dropWhile (fun c => c ≠ ':')).drop 1)

/-- Model of the SplitResult.hostname property: lowercased host, or none when
empty. -/
def hostnameOf (netloc : List Char) : Option (List Char) :=
  let h := (hostPort netloc).1
  if h = [] then Option.none else Option.some (h.map lowerChar)

/-- Nat value of a digit run consumed so far, continuing a Python int literal
in which single underscores may separate digits. -/
def pyIntAux (acc : Nat) : List Char → Option Nat
  | [] => Option.some acc
  | '_' :: c :: t =>
    if c.isDigit then pyIntAux (acc * 10 + (c.toNat - 48)) t else Option.none
  | ['_'] => Option.none
  | c :: t =>
    if c.isDigit then pyIntAux (acc * 10 + (c.toNat - 48)) t else Option.none

/-- Digit run of a Python int literal: must begin with a digit. -/
def pyIntStart : List Char → Option Nat
  | [] => Option.none
  | c :: t => if c.isDigit then pyIntAux (c.toNat - 48) t else Option.none

/-- Model of the Python builtin int applied to a string (base 10, ASCII
digits): optional surrounding whitespace, optional sign, digits with single
underscores allowed between them.  Returns none where Python raises
ValueError. -/
def pyIntOfChars (s : List Char) : Option Int :=
  match pyStripChars s with
  | '+' :: rest => (pyIntStart rest).map (fun n => (n : Int))
  | '-' :: rest => (pyIntStart rest).map (fun n => -(n : Int))
  | rest => (pyIntStart rest).map (fun n => (n : Int))

/-- Model of the SplitResult.port property: parsed port, none when absent,
error where Python raises ValueError. -/
def portOf (netloc : List Char) : Except String (Option Nat) :=
  let p := (hostPort netloc).2
  if p = [] then Except.ok Option.none
  else
    match pyIntOfChars p with
    | Option.none => Except.error "Port could not be cast to integer value"
    | Option.some v =>
      if 0 ≤ v ∧ v ≤ 65535 then Except.ok (Option.some v.toNat)
      else Except.error "Port out of range 0-65535"

/-- Drop all trailing slash characters, as Python str.rstrip of a slash. -/
def rstripSlash (l : List Char) : List Char :=
  (l.reverse.dropWhile (fun c => c = '/')).reverse

/-- Embedding of normalize_base_url from the scan script: strip, prepend the
secure scheme when no scheme separator is present, parse, and rebuild
scheme://netloc (falling back to the path when the netloc is empty) with
trailing slashes removed. -/
def normalize_base_url (raw : String) : Except String String :=
  let text := pyStripChars raw.data
  if text = [] then Except.ok ""
  else
    let text2 := if hasSubstr text "://".data then text else "https://".data ++ text
    match urlparse text2 with
    | Except.error e => Except.error e
    | Except.ok p =>
      let scheme := if p.scheme = [] then "https".data else p.scheme
      let netloc := if p.netloc = [] then p.path else p.netloc
      Except.ok (String.mk (rstripSlash (scheme ++ "://".data ++ netloc)))

/-- Embedding of node_identity from the scan script: host:port with the port
defaulting to 443 for the secure scheme and 80 otherwise. -/
def node_identity (url : String) : Except String String :=
  match urlparse url.data with
  | Except.error e => Except.error e
  | Except.ok p =>
    let host :=
      match hostnameOf p.netloc with
      | Option.some h => h
      | Option.none => if p.netloc ≠ [] then p.netloc else url.data
    match portOf p.netloc with
    | Except.error e => Except.error e
    | Except.ok portO =>
      let port : Nat :=
        match portO with
        | Option.some n => n
        | Option.none => if p.scheme = "https".data then 443 else 80
      Except.ok (String.mk (host ++ (':' :: (Nat.repr port).data)))

/-- Embedding of classify_node_host: payout eligibility and suggested action
for a node host.  Python string truthiness on the version arguments is
nonemptiness. -/
def classify_node_host (is_active online : Bool) (node_version network_version : String) :
    Bool × String :=
  if ¬ is_active then (false, "inactive_no_payout")
  else if ¬ online then (false, "investigate_offline")
  else if network_version ≠ "" ∧ node_version ≠ "" ∧ node_version ≠ network_version then
    (true, "pay_weekly_and_upgrade_node")
  else (true, "pay_weekly")

/-- Classification record returned by classify_miner_age.  Python floats are
modelled as exact rationals; the IEEE rounding of the single division by 3600
is not modelled. -/
structure AgeClass where
  age_h : Option ℚ
  state : String
  weekly_eligible : Bool
  suggested_action : String
deriving Repr, DecidableEq

/-- Embedding of classify_miner_age.  A Python-falsy last_attest_ts (None or
zero) is the unknown case; otherwise the age in hours is clamped at zero and
compared inclusively against the two windows. -/
def classify_miner_age (last_attest_ts : Option Int) (now_ts : Int)
    (active_window_h weekly_window_h : ℚ) : AgeClass :=
  match last_attest_ts with
  | Option.none => ⟨Option.none, "unknown", false, "request_status_or_upgrade"⟩
  | Option.some t =>
    if t = 0 then ⟨Option.none, "unknown", false, "request_status_or_upgrade"⟩
    else
      let age_h : ℚ := max 0 (((now_ts - t : Int) : ℚ) / 3600)
      if age_h ≤ active_window_h then
        ⟨Option.some age_h, "active", true, "pay_weekly"⟩
      else if age_h ≤ weekly_window_h then
        ⟨Option.some age_h, "stale_but_weekly_eligible", true,
         "pay_weekly_and_ping_health_check"⟩
      else
        ⟨Option.some age_h, "inactive", false, "restart_or_upgrade_miner"⟩

/-- Row emitted for an expected miner that was not observed this run. -/
structure GapRow where
  miner : String
  state : String
  weekly_eligible : Bool
  suggested_action : String
deriving Repr, DecidableEq

/-- Embedding of the missing-expected-miner computation in build_report:
sorted(expected - observed).  Python sets become finite sets of strings and
sorted is the ascending sort of the linear order on strings (both orders are
lexicographic by code point). -/
def missingExpected (expected observed : Finset String) : List String :=
  (expected \ observed).sort (· ≤ ·)

/-- Embedding of the gap-row construction in build_report: one row per missing
expected miner, with fixed state and action. -/
def missingExpectedRows (expected observed : Finset String) : List GapRow :=
  (missingExpected expected observed).map
    (fun m => ⟨m, "not_visible_in_public_api", false, "check_node_url_then_upgrade_miner"⟩)

/-- Loop body of _dedupe_preserve: the state is the output list so far and
the seen set (as a list of keys). -/
def dedupeStep (st : List String × List String) (v : String) :
    Except String (List String × List String) := do
  let norm ← normalize_base_url v
  if norm = "" then pure st
  else do
    let key ← node_identity norm
    if key ∈ st.2 then pure st
    else pure (st.1 ++ [norm], st.2 ++ [key])

/-- Embedding of _dedupe_preserve: normalize each value, drop empties, and
keep the first value of each node identity, preserving order. -/
def _dedupe_preserve (values : List String) : Except String (List String) := do
  let r ← values.foldlM dedupeStep (([] : List String), ([] : List String))
  pure r.1

/-- Normalized value and identity key of each input, in order, keeping only
values whose normalized form is nonempty.  Helper for the declarative
description of deduplication. -/
def normIdPairs : List String → Except String (List (String × String))
  | [] => Except.ok []
  | v :: vs => do
    let n ← normalize_base_url v
    if n = "" then normIdPairs vs
    else do
      let k ← node_identity n
      let rest ← normIdPairs vs
      pure ((n, k) :: rest)

/-- Fueled worker for firstOccurrences; the fuel is an upper bound on the
list length, so the middle case is never reached. -/
def firstOccurrencesAux : Nat → List (String × String) → List (String × String)
  | _, [] => []
  | 0, l => l
  | Nat.succ n, p :: ps => p :: firstOccurrencesAux n (ps.filter (fun q => q.2 ≠ p.2))

/-- Keep the first pair carrying each key (second component), removing every
later duplicate. -/
def firstOccurrences (l : List (String × String)) : List (String × String) :=
  firstOccurrencesAux l.length l

/-- Declarative description of deduplication, following the specification
wording: normalize each value, drop empties, deduplicate by identity keeping
the first occurrence of each identity. -/
def specDedupePreserve (values : List String) : Except String (List String) := do
  let pairs ← normIdPairs values
  pure ((firstOccurrences pairs).map (fun p => p.1))

/-- Dynamic JSON-like value as handled by the script (json.loads output).
Floats do not occur in the modelled payload fields. -/
inductive PyVal where
  | none
  | bool (b : Bool)
  | int (n : Int)
  | str (s : String)
  | list (xs : List PyVal)
  | dict (xs : List (String × PyVal))

/-- Python repr of a value, ASCII strings without escape handling. -/
def pyRepr : PyVal → String
  | PyVal.none => "None"
  | PyVal.bool true => "True"
  | PyVal.bool false => "False"
  | PyVal.int n => Int.repr n
  | PyVal.str s =>
    String.singleton (Char.ofNat 39) ++ s ++ String.singleton (Char.ofNat 39)
  | PyVal.list xs =>
    "[" ++ String.intercalate ", " (xs.attach.map (fun x => pyRepr x.1)) ++ "]"
  | PyVal.dict xs =>
    "\x7b" ++
      String.intercalate ", "
        (xs.attach.map (fun x =>
          String.singleton (Char.ofNat 39) ++ x.1.1 ++ String.singleton (Char.ofNat 39) ++
            ": " ++ pyRepr x.1.2)) ++ "\x7d"
decreasing_by
  · have := List.sizeOf_lt_of_mem x.2
    simp only [PyVal.list.sizeOf_spec]
    omega
  · calc sizeOf x.1.2 < sizeOf x.1 := by cases x.1; simp
      _ < sizeOf (PyVal.dict xs) := by
        have := List.sizeOf_lt_of_mem x.2
        simp only [PyVal.dict.sizeOf_spec]
        omega

/-- Python str of a value: the string itself for strings, repr otherwise. -/
def pyStr : PyVal → String
  | PyVal.str s => s
  | v => pyRepr v

/-- Python truthiness of a value. -/
def pyTruthy : PyVal → Bool
  | PyVal.none => false
  | PyVal.bool b => b
  | PyVal.int n => n ≠ 0
  | PyVal.str s => s ≠ ""
  | PyVal.list xs => !xs.isEmpty
  | PyVal.dict xs => !xs.isEmpty

/-- Whether a value is a dict (isinstance(x, dict)). -/
def PyVal.isDict : PyVal → Bool
  | PyVal.dict _ => true
  | _ => false

/-- Python dict.get with a default (JSON object keys are unique). -/
def pyGetD (d : List (String × PyVal)) (k : String) (dflt : PyVal) : PyVal :=
  match d.find? (fun p => p.1 = k) with
  | Option.some p => p.2
  | Option.none => dflt

/-- The url field of a registry row, keeping the three states the script
distinguishes: key absent, JSON null, or a string. -/
inductive UrlField where
  | absent
  | null
  | str (s : String)
deriving Repr, DecidableEq

/-- Python truthiness of row.get, used by the candidate discovery
(build_report line 274). -/
def urlTruthy : UrlField → Bool
  | UrlField.str s => s ≠ ""
  | _ => false

/-- Value of str(row.get of the url key with empty default), as used by the
reconcile pass and the registry map: absent key gives the empty string, a
JSON null gives the four-letter string None. -/
def urlStr : UrlField → String
  | UrlField.absent => ""
  | UrlField.null => "None"
  | UrlField.str s => s

/-- Registry row from the nodes endpooint, restricted to the fields the
script reads; metadata values are modelled as present-string or absent. -/
structure RegRow where
  url : UrlField
  node_id : Option String
  name : Option String
  wallet : Option String
  is_active : Option Bool
deriving Repr, DecidableEq

/-- Python falsy-or on an optional string: value or default when the value is
None or empty. -/
def orDefault (v : Option String) (dflt : String) : String :=
  match v with
  | Option.some s => if s = "" then dflt else s
  | Option.none => dflt

/-- One output node row, mirroring the dict literal in build_report. -/
structure NodeRow where
  node_id : String
  name : String
  wallet : Option String
  url : String
  is_active : Bool
  online : Bool
  health_ok : Bool
  version : String
  uptime_s : PyVal
  payout_eligible : Bool
  suggested_action : String
  health_error : Option String
  miners_error : Option String

/-- Identity key of a registry row, as _registry_rows_to_map computes it. -/
def registryKey (r : RegRow) : Except String String := do
  let n ← normalize_base_url (urlStr r.url)
  node_identity n

/-- Set a key in the registry map, later rows overwriting earlier ones as in
a Python dict. -/
def mapSet (m : List (String × RegRow)) (k : String) (r : RegRow) :
    List (String × RegRow) :=
  if m.any (fun p => p.1 = k) then m.map (fun p => if p.1 = k then (k, r) else p)
  else m ++ [(k, r)]

/-- Lookup in the registry map. -/
def lookupMap (m : List (String × RegRow)) (k : String) : Option RegRow :=
  (m.find? (fun p => p.1 = k)).map (fun p => p.2)

/-- Embedding of _registry_rows_to_map (the mapping part; rows are given
already extracted). -/
def registryMap (rows : List RegRow) : Except String (List (String × RegRow)) :=
  rows.foldlM
    (fun m r => do
      let k ← registryKey r
      pure (if k = "" then m else mapSet m k r))
    ([] : List (String × RegRow))

/-- Candidate URL list of build_report: the normalized seed, then the
stripped url of each registry row with a truthy url, then the operator
extras, deduplicated by identity. -/
def discoveredUrls (seed : String) (regRows : List RegRow) (extras : List String) :
    List String :=
  seed ::
    ((regRows.filter (fun r => urlTruthy r.url)).map
      (fun r => String.mk (pyStripChars (urlStr r.url).data)) ++ extras)

/-- Candidate computation of build_report lines 273-277: normalize the seed,
then deduplicate the discovered URLs. -/
def candidateUrls (seedRaw : String) (regRows : List RegRow) (extras : List String) :
    Except String (List String) := do
  let seed ← normalize_base_url seedRaw
  _dedupe_preserve (discoveredUrls seed regRows extras)

/-- Network version extracted from the seed health payload.  The health
contract types version as a string; a non-string value is rendered through
pyStr here, where Python would keep the raw value (only relevant to payloads
violating the contract). -/
def networkVersionOf (p : PyVal) : String :=
  match p with
  | PyVal.dict d => pyStr (pyGetD d "version" (PyVal.str ""))
  | _ => ""

/-- Record built by the scan loop of build_report for one queried candidate
URL once its identity key is computed. -/
def mkScanRow (seed networkVersion : String) (rmap : List (String × RegRow))
    (health miners : String → PyVal × Option String) (u key : String) : NodeRow :=
  let reg := lookupMap rmap key
  let hp := (health u).1
  let herr := (health u).2
  let merr := (miners u).2
  let online := hp.isDict && herr.isNone
  let node_version := match hp with
    | PyVal.dict d => pyStr (pyGetD d "version" (PyVal.str ""))
    | _ => ""
  let uptime := match hp with
    | PyVal.dict d => pyGetD d "uptime_s" PyVal.none
    | _ => PyVal.none
  let is_active := match reg with
    | Option.some r => match r.is_active with
      | Option.some b => b
      | Option.none => decide (u = seed)
    | Option.none => decide (u = seed)
  let pa := classify_node_host is_active online node_version networkVersion
  { node_id := orDefault (reg.bind (fun r => r.node_id)) key
    name := orDefault (reg.bind (fun r => r.name)) key
    wallet := reg.bind (fun r => r.wallet)
    url := u
    is_active := is_active
    online := online
    health_ok := match hp with
      | PyVal.dict d => pyTruthy (pyGetD d "ok" PyVal.none)
      | _ => false
    version := node_version
    uptime_s := uptime
    payout_eligible := pa.1
    suggested_action := pa.2
    health_error := herr
    miners_error := merr }

/-- Scanned row for one queried candidate URL, mirroring the scan loop of
build_report.  Fetch results are supplied as pure functions from base URL to
payload and error, one per endpoint path. -/
def scanRow (seed networkVersion : String) (rmap : List (String × RegRow))
    (health miners : String → PyVal × Option String) (u : String) :
    Except String NodeRow := do
  let key ← node_identity u
  pure (mkScanRow seed networkVersion rmap health miners u key)

/-- Synthetic row for a registry entry with no public URL, mirroring the dict
literal appended by the reconcile pass of build_report. -/
def syntheticRow (r : RegRow) : NodeRow :=
  { node_id := orDefault r.node_id "unknown_node"
    name := orDefault r.name "unknown_node"
    wallet := r.wallet
    url := "-"
    is_active := r.is_active.getD false
    online := false
    health_ok := false
    version := "-"
    uptime_s := PyVal.none
    payout_eligible := false
    suggested_action := "missing_url_or_redacted"
    health_error := Option.some "missing_url"
    miners_error := Option.some "missing_url" }

/-- Reconcile pass of build_report lines 344-367: walk the registry rows
again; a row whose identity was already scanned is skipped, a row whose
normalized url is empty yields a synthetic row, and any other row yields
nothing. -/
def reconcilePass (regRows : List RegRow) (scannedKeys : List String) :
    Except String (List NodeRow) :=
  regRows.foldlM
    (fun acc row => do
      let raw ← normalize_base_url (urlStr row.url)
      let key ← if raw ≠ "" then node_identity raw else pure ""
      if raw ≠ "" ∧ key ∈ scannedKeys then pure acc
      else if raw = "" then pure (acc ++ [syntheticRow row])
      else pure acc)
    ([] : List NodeRow)

/-- Node-row assembly of build_report: scan every candidate, then append the
synthetic rows of the reconcile pass.  Fetch results are pure functions of
the base URL, so the two health fetches of the seed coincide. -/
def buildNodeRows (seedRaw : String) (regRows : List RegRow) (extras : List String)
    (health miners : String → PyVal × Option String) :
    Except String (List NodeRow) := do
  let seed ← normalize_base_url seedRaw
  let rmap ← registryMap regRows
  let urls ← _dedupe_preserve (discoveredUrls seed regRows extras)
  let scanRows ← urls.mapM
    (scanRow seed (networkVersionOf (health seed).1) rmap health miners)
  let scannedKeys ← (scanRows.filter (fun n => n.url ≠ "")).mapM
    (fun n => node_identity n.url)
  let extraRows ← reconcilePass regRows scannedKeys
  pure (scanRows ++ extraRows)

/-- One miner sighting as reported by a node, restricted to the typed shape
of the miners endpoint contract (string miner id, integer timestamps, scalar
descriptive fields). -/
structure Sighting where
  miner : String
  last_attest : Option Int
  first_attest : Option Int
  device_family : Option String
  device_arch : Option String
  hardware_type : Option String
  entropy_score : Option Int
  antiquity_multiplier : Option Int
deriving Repr, DecidableEq

/-- Aggregated record per miner, mirroring the dict built by
_aggregate_miners. -/
structure MinerRecord where
  miner : String
  last_attest : Option Int
  first_attest : Option Int
  device_family : Option String
  device_arch : Option String
  hardware_type : Option String
  entropy_score : Option Int
  antiquity_multiplier : Option Int
  nodes_seen : List String
deriving Repr, DecidableEq

/-- Timestamp of a sighting as the script coerces it: int of the value or
zero when the value is falsy. -/
def minerTs (row : Sighting) : Int := row.last_attest.getD 0

/-- Lookup in the aggregation map (dict.get). -/
def alookup (agg : List (String × MinerRecord)) (k : String) : Option MinerRecord :=
  (agg.find? (fun p => p.1 = k)).map (fun p => p.2)

/-- In-place overwrite of the record stored under a key, keeping insertion
order, as mutation of a dict value does. -/
def areplace (agg : List (String × MinerRecord)) (k : String) (v : MinerRecord) :
    List (String × MinerRecord) :=
  agg.map (fun p => if p.1 = k then (k, v) else p)

/-- Fresh record created for a first sighting of a miner. -/
def freshRecord (mid node : String) (row : Sighting) : MinerRecord :=
  { miner := mid
    last_attest := if 0 < minerTs row then Option.some (minerTs row) else Option.none
    first_attest := row.first_attest
    device_family := row.device_family
    device_arch := row.device_arch
    hardware_type := row.hardware_type
    entropy_score := row.entropy_score
    antiquity_multiplier := row.antiquity_multiplier
    nodes_seen := [node] }

/-- Last-attest update applied to an existing record by a further sighting:
overwrite when the new timestamp is truthy and strictly fresher. -/
def bumpLA (row : Sighting) (ex : MinerRecord) : MinerRecord :=
  if minerTs row ≠ 0 ∧ ex.last_attest.getD 0 < minerTs row then
    { ex with last_attest := Option.some (minerTs row) }
  else ex

/-- Nodes-seen update applied to an existing record: append the node when not
already present. -/
def addNode (node : String) (ex2 : MinerRecord) : MinerRecord :=
  if node ∈ ex2.nodes_seen then ex2
  else { ex2 with nodes_seen := ex2.nodes_seen ++ [node] }

/-- Update applied to an existing record by a further sighting: take the
fresher positive timestamp and add the node if not already present. -/
def updatedRec (node : String) (row : Sighting) (ex : MinerRecord) : MinerRecord :=
  addNode node (bumpLA row ex)

/-- Body of the inner loop of _aggregate_miners: fold one sighting from one
node into the aggregation map. -/
def stepSighting (node : String) (row : Sighting) (agg : List (String × MinerRecord)) :
    List (String × MinerRecord) :=
  let mid := pyStrip row.miner
  if mid = "" then agg
  else
    match alookup agg mid with
    | Option.none => agg ++ [(mid, freshRecord mid node row)]
    | Option.some ex => areplace agg mid (updatedRec node row ex)

/-- Embedding of _aggregate_miners: fold the per-node sighting lists, in
order, into one record per miner.  The mapping from node URL to rows is a
list in dict iteration order. -/
def _aggregate_miners (node_miners : List (String × List Sighting)) :
    List (String × MinerRecord) :=
  node_miners.foldl
    (fun agg nr => nr.2.foldl (fun a row => stepSighting nr.1 row a) agg)
    ([] : List (String × MinerRecord))

/-- All (node, sighting) pairs of the input, in fold order. -/
def sightingPairs (node_miners : List (String × List Sighting)) :
    List (String × Sighting) :=
  node_miners.flatMap (fun nr => nr.2.map (fun row => (nr.1, row)))

/-- Fold of a pair list into the aggregation map; _aggregate_miners equals
this fold over sightingPairs. -/
def foldPairs (ps : List (String × Sighting)) (acc : List (String × MinerRecord)) :
    List (String × MinerRecord) :=
  ps.foldl (fun a p => stepSighting p.1 p.2 a) acc

/-- Positive timestamps contributed to one miner id by a pair list, in fold
order. -/
def tsOfPairs (ps : List (String × Sighting)) (mid : String) : List Int :=
  ((ps.filter (fun p => pyStrip p.2.miner = mid)).map (fun p => minerTs p.2)).filter
    (fun t => 0 < t)

/-- Nodes contributing a sighting of one miner id in a pair list, in fold
order, with repetitions. -/
def nodesOfPairs (ps : List (String × Sighting)) (mid : String) : List String :=
  (ps.filter (fun p => pyStrip p.2.miner = mid)).map (fun p => p.1)

/-- Positive timestamps contributed to one miner id by the input, in fold
order. -/
def posTimes (node_miners : List (String × List Sighting)) (mid : String) : List Int :=
  tsOfPairs (sightingPairs node_miners) mid

/-- Nodes contributing a sighting of one miner id, in fold order, with
repetitions. -/
def contribNodes (node_miners : List (String × List Sighting)) (mid : String) :
    List String :=
  nodesOfPairs (sightingPairs node_miners) mid

/-- Maximum-so-far combination used to describe the last_attest merge. -/
def omax (a : Option Int) (t : Int) : Option Int :=
  match a with
  | Option.none => Option.some t
  | Option.some b => Option.some (max b t)

/-- Declarative last_attest of a miner: fold of max over the positive
contributed timestamps, absent when there are none. -/
def specLast (node_miners : List (String × List Sighting)) (mid : String) : Option Int :=
  (posTimes node_miners mid).foldl omax Option.none

deriving instance DecidableEq for Except

/-- Order on optional last_attest values: absent is below everything, present
values compare as integers. -/
def laLE (a b : Option Int) : Prop :=
  ∀ x, a = Option.some x → ∃ y, b = Option.some y ∧ x ≤ y

/-- Valid URL scheme string: nonempty scheme characters beginning with an
ASCII letter. -/
def SchemeStr (s : List Char) : Prop :=
  s ≠ [] ∧ (∀ c ∈ s, schemeChar c) ∧ (s.take 1).all Char.isAlpha

/-- Characters of a plain DNS-style host. -/
def hostChar (c : Char) : Bool := c.isAlpha ∨ c.isDigit ∨ c = '.' ∨ c = '-'

/-- Plain host: nonempty, made of letters, digits, dots and hyphens. -/
def PlainHost (h : List Char) : Prop := h ≠ [] ∧ ∀ c ∈ h, hostChar c

/-- Port part of a URL authority: empty, or a colon followed by a nonempty
digit run whose value fits a port. -/
def PortPart (pp : List Char) : Prop :=
  pp = [] ∨ ∃ d, pp = ':' :: d ∧ d ≠ [] ∧ (∀ c ∈ d, c.isDigit) ∧
    ∃ n : Nat, n ≤ 65535 ∧ pyIntOfChars d = Option.some (n : Int)

/-- Characters allowed in the authority part of a plain URL of the invariance
family: host characters, digits and the port colon. -/
def plainNetChar (c : Char) : Bool := hostChar c ∨ c = ':'

/-- Character range of the scheme and plain-authority classes: letters,
digits, plus, hyphen, dot, or the port colon, as code points. -/
def inPlainRange (n : Nat) : Prop :=
  (65 ≤ n ∧ n ≤ 90) ∨ (97 ≤ n ∧ n ≤ 122) ∨ (48 ≤ n ∧ n ≤ 57) ∨
    n = 43 ∨ n = 45 ∨ n = 46 ∨ n = 58

instance (n : Nat) : Decidable (inPlainRange n) := by
  unfold inPlainRange
  infer_instance

/-- Identity of a URL after normalization, the composition the script applies
to every candidate. -/
def idOfNorm (u : String) : Except String String := do
  let n ← normalize_base_url u
  node_identity n

/-- Candidate-list computation as the C5 claim words it: the seed URL as
given, plus the registry urls and the extras, each normalized once, empties
dropped, deduplicated by identity keeping the first occurrence. -/
def claimCandidates (seedRaw : String) (regRows : List RegRow) (extras : List String) :
    Except String (List String) :=
  specDedupePreserve (discoveredUrls seedRaw regRows extras)

/-- Fetch stub that always fails. -/
def cexFetchErr : String → PyVal × Option String :=
  fun _ => (PyVal.none, Option.some "timeout")

/-- Fetch stub returning a JSON array with no fetch error. -/
def cexFetchListOk : String → PyVal × Option String :=
  fun _ => (PyVal.list [], Option.none)

/-- Registry row with a JSON-null url field. -/
def cexRegNull : RegRow :=
  ⟨UrlField.null, Option.some "n1", Option.some "n1", Option.none, Option.none⟩

/-- Sighting of miner m by one node. -/
def cexSightA : Sighting :=
  ⟨"m", Option.some 10, Option.some 1, Option.some "x", Option.none, Option.none,
   Option.none, Option.none⟩

/-- Second sighting of miner m with a fresher timestamp and different
descriptive fields. -/
def cexSightB : Sighting :=
  ⟨"m", Option.some 20, Option.some 2, Option.some "y", Option.none, Option.none,
   Option.none, Option.none⟩

/-- Record well-formedness maintained by the aggregation fold: the stored
miner id equals the key and is nonempty, at least one node has been seen with
no duplicates, and any stored last_attest is strictly positive. -/
def goodRec (k : String) (r : MinerRecord) : Prop :=
  r.miner = k ∧ k ≠ "" ∧ r.nodes_seen ≠ [] ∧ r.nodes_seen.Nodup ∧
    ∀ t, r.last_attest = Option.some t → 0 < t

/-- Well-formedness of the whole aggregation map. -/
def goodAgg (agg : List (String × MinerRecord)) : Prop :=
  ∀ p ∈ agg, goodRec p.1 p.2

/-- Pure part of the deduplication fold: process normalized/identity pairs
against an output list and a seen set. -/
def dedupeSeen (st : List String × List String) :
    List (String × String) → List String × List String
  | [] => st
  | p :: ps =>
    if p.2 ∈ st.2 then dedupeSeen st ps
    else dedupeSeen (st.1 ++ [p.1], st.2 ++ [p.2]) ps

/-- The single node row produced for the seed when the health fetch returns a
JSON array with no error and the miners fetch fails. -/
def cexSeedRowList : List NodeRow :=
  [{ node_id := "seed:443"
     name := "seed:443"
     wallet := Option.none
     url := "https://seed"
     is_active := true
     online := false
     health_ok := false
     version := ""
     uptime_s := PyVal.none
     payout_eligible := false
     suggested_action := "investigate_offline"
     health_error := Option.none
     miners_error := Option.some "timeout" }]

/-- Port the scan script attributes to a plain URL of the invariance family:
the explicit port when one is spelled, the scheme default otherwise. -/
def portOfPlain (ls pp : List Char) : Nat :=
  match pp with
  | [] => if ls = "https".data then 443 else 80
  | _ :: d =>
    match pyIntOfChars d with
    | Option.some v => v.toNat
    | Option.none => 0

/-! Theorems.  Each claim of the specification audit is settled by one
theorem below (with a witness where the theorem carries hypotheses, and a
counterexample where the claim as stated fails on the code). -/

/-- C3: classify_node_host is a total pure function with check precedence
inactivity over offline over version mismatch: an inactive node gives
(false, inactive_no_payout) for any online/version combination; an active
offline node gives (false, investigate_offline); an active online node with
both versions nonempty and unequal gives (true, pay_weekly_and_upgrade_node);
otherwise (true, pay_weekly). -/
theorem C3_classify_node_host_cases (a o : Bool) (nv wv : String) :
    (a = false → classify_node_host a o nv wv = (false, "inactive_no_payout")) ∧
    (a = true → o = false → classify_node_host a o nv wv = (false, "investigate_offline")) ∧
    (a = true → o = true → wv ≠ "" → nv ≠ "" → nv ≠ wv →
      classify_node_host a o nv wv = (true, "pay_weekly_and_upgrade_node")) ∧
    (a = true → o = true → (wv = "" ∨ nv = "" ∨ nv = wv) →
      classify_node_host a o nv wv = (true, "pay_weekly")) := by
  unfold classify_node_host
  refine ⟨?_, ?_, ?_, ?_⟩ <;> intros <;> subst_vars <;> simp_all
  rcases ‹_ ∨ _ ∨ _› with h | h | h <;> simp_all

/-- Witness for C3 at concrete inputs. -/
theorem C3_classify_node_host_cases_witness :
    classify_node_host true true "2.1.0" "2.2.1" = (true, "pay_weekly_and_upgrade_node") ∧
    classify_node_host false true "2.1.0" "2.2.1" = (false, "inactive_no_payout") ∧
    classify_node_host true true "2.2.1" "2.2.1" = (true, "pay_weekly") :=
  ⟨(C3_classify_node_host_cases true true "2.1.0" "2.2.1").2.2.1 rfl rfl
      (by decide) (by decide) (by decide),
   (C3_classify_node_host_cases false true "2.1.0" "2.2.1").1 rfl,
   (C3_classify_node_host_cases true true "2.2.1" "2.2.1").2.2.2 rfl rfl
      (Or.inr (Or.inr rfl))⟩

/-- C4: classify_miner_age returns the unknown record for absent or zero
last_attest_ts; otherwise the age is max 0 of the elapsed hours, and the band
checks are inclusive at both edges: age up to the active window is active and
eligible, past it but up to the weekly window is stale but eligible, and past
the weekly window is inactive and not eligible. -/
theorem C4_classify_miner_age_cases (v now : Int) (aw ww : ℚ) :
    (classify_miner_age Option.none now aw ww =
      ⟨Option.none, "unknown", false, "request_status_or_upgrade"⟩) ∧
    (classify_miner_age (Option.some 0) now aw ww =
      ⟨Option.none, "unknown", false, "request_status_or_upgrade"⟩) ∧
    (v ≠ 0 → max 0 (((now - v : Int) : ℚ) / 3600) ≤ aw →
      classify_miner_age (Option.some v) now aw ww =
        ⟨Option.some (max 0 (((now - v : Int) : ℚ) / 3600)), "active", true, "pay_weekly"⟩) ∧
    (v ≠ 0 → aw < max 0 (((now - v : Int) : ℚ) / 3600) →
      max 0 (((now - v : Int) : ℚ) / 3600) ≤ ww →
      classify_miner_age (Option.some v) now aw ww =
        ⟨Option.some (max 0 (((now - v : Int) : ℚ) / 3600)), "stale_but_weekly_eligible",
         true, "pay_weekly_and_ping_health_check"⟩) ∧
    (v ≠ 0 → aw < max 0 (((now - v : Int) : ℚ) / 3600) →
      ww < max 0 (((now - v : Int) : ℚ) / 3600) →
      classify_miner_age (Option.some v) now aw ww =
        ⟨Option.some (max 0 (((now - v : Int) : ℚ) / 3600)), "inactive", false,
         "restart_or_upgrade_miner"⟩) := by
  refine ⟨rfl, rfl, ?_, ?_, ?_⟩ <;> intro hv h1 <;>
    simp only [classify_miner_age, if_neg hv]
  · rw [if_pos h1]
  · intro h2
    rw [if_neg (not_le.mpr h1), if_pos h2]
  · intro h2
    rw [if_neg (not_le.mpr h1), if_neg (not_le.mpr h2)]

/-- Witness for C4 at concrete inputs: fifteen minutes old is active, exactly
at the two-hour edge is still active, 72 hours is stale but eligible, 200
hours is inactive. -/
theorem C4_classify_miner_age_cases_witness :
    classify_miner_age Option.none 1700000000 2 168 =
      ⟨Option.none, "unknown", false, "request_status_or_upgrade"⟩ ∧
    classify_miner_age (Option.some (1700000000 - 7200)) 1700000000 2 168 =
      ⟨Option.some 2, "active", true, "pay_weekly"⟩ ∧
    classify_miner_age (Option.some (1700000000 - 72 * 3600)) 1700000000 2 168 =
      ⟨Option.some 72, "stale_but_weekly_eligible", true,
       "pay_weekly_and_ping_health_check"⟩ ∧
    classify_miner_age (Option.some (1700000000 - 200 * 3600)) 1700000000 2 168 =
      ⟨Option.some 200, "inactive", false, "restart_or_upgrade_miner"⟩ := by
  have h1 := (C4_classify_miner_age_cases (1700000000 - 7200) 1700000000 2 168).2.2.1
    (by norm_num) (by norm_num)
  have h2 := (C4_classify_miner_age_cases (1700000000 - 72 * 3600) 1700000000 2 168).2.2.2.1
    (by norm_num) (by norm_num) (by norm_num)
  have h3 := (C4_classify_miner_age_cases (1700000000 - 200 * 3600) 1700000000 2 168).2.2.2.2
    (by norm_num) (by norm_num) (by norm_num)
  refine ⟨(C4_classify_miner_age_cases 1 1700000000 2 168).1, ?_, ?_, ?_⟩
  · rw [h1]; norm_num
  · rw [h2]; norm_num
  · rw [h3]; norm_num

/-- C9: the missing-expected-miner list is the set difference of expected and
observed ids, sorted ascending without duplicates, and every gap row carries
exactly the fixed state, eligibility and action. -/
theorem C9_missing_expected (e o : Finset String) :
    List.Sorted (· ≤ ·) (missingExpected e o) ∧
    (missingExpected e o).Nodup ∧
    (∀ m, m ∈ missingExpected e o ↔ m ∈ e ∧ m ∉ o) ∧
    (missingExpectedRows e o).map GapRow.miner = missingExpected e o ∧
    ∀ g ∈ missingExpectedRows e o,
      g.state = "not_visible_in_public_api" ∧ g.weekly_eligible = false ∧
        g.suggested_action = "check_node_url_then_upgrade_miner" := by
  refine ⟨Finset.sort_sorted _ _, Finset.sort_nodup _ _, ?_, ?_, ?_⟩
  · intro m
    rw [missingExpected, Finset.mem_sort, Finset.mem_sdiff]
  · simp only [missingExpectedRows, List.map_map]
    exact List.map_id _
  · intro g hg
    simp only [missingExpectedRows, List.mem_map] at hg
    obtain ⟨m, _, rfl⟩ := hg
    exact ⟨rfl, rfl, rfl⟩

/-- Witness for C9 at concrete sets: of the expected miners alpha, beta and
gamma, only alpha was observed, and beta is reported missing. -/
theorem C9_missing_expected_witness :
    "beta" ∈ missingExpected {"alpha", "beta", "gamma"} {"alpha"} ∧
    "alpha" ∉ missingExpected {"alpha", "beta", "gamma"} {"alpha"} := by
  have h := (C9_missing_expected {"alpha", "beta", "gamma"} {"alpha"}).2.2.1
  refine ⟨(h "beta").mpr ⟨by decide, by decide⟩, fun hc => ?_⟩
  have := ((h "alpha").mp hc).2
  simp at this

/-- C1 counterexample: folding the same two sightings of miner m in the two
node orders does not yield the same record; the first-wins descriptive fields
(first_attest, device_family) and the nodes_seen order differ, so aggregation
is not order-independent for the whole record as the claim states. -/
theorem C1_counterexample :
    alookup (_aggregate_miners [("n1", [cexSightA]), ("n2", [cexSightB])]) "m" ≠
      alookup (_aggregate_miners [("n2", [cexSightB]), ("n1", [cexSightA])]) "m" := by
  decide

/-- C2: evaluation of the node-row assembly at the failing input.  The
registry row n1 has a JSON-null url: Python str renders it as the string None,
its normalized url https://None is nonempty, its identity was never queried,
and the reconcile pass appends nothing for it, so the row vanishes from the
output, which keeps only the seed row.  The claim (and the comment above the
reconcile pass in the source) requires the row to appear. -/
theorem C2_null_url_row_dropped :
    (buildNodeRows "https://seed" [cexRegNull] [] cexFetchErr cexFetchErr).map
      (fun rows => rows.map (fun r => (r.node_id, r.url))) =
      Except.ok [("seed:443", "https://seed")] := by
  rfl

/-- C5 counterexample: with seed given as a bare slash and no other inputs,
the code normalizes the seed before deduplication and the deduplication
normalizes it again, producing https://https:, while the claimed description
(each input normalized once) produces https:. -/
theorem C5_counterexample :
    candidateUrls "/" [] [] ≠ claimCandidates "/" [] [] := by
  decide

/-- C6 counterexample: a health fetch returning a JSON array with a null
fetch error component yields online = false for the queried seed node, though
the claim (online iff JSON returned with no fetch error) requires true. -/
theorem C6_counterexample :
    (buildNodeRows "https://seed" [] [] cexFetchListOk cexFetchErr).map
      (fun rows => rows.map NodeRow.online) = Except.ok [false] ∧
    (cexFetchListOk "https://seed").2 = Option.none :=
  ⟨rfl, rfl⟩

/-- C7 counterexample: normalization is not idempotent.  The input slash
normalizes to https: (an already-normalized output), and normalizing https:
again yields https://https: instead of returning it unchanged. -/
theorem C7_counterexample :
    normalize_base_url "/" = Except.ok "https:" ∧
    normalize_base_url "https:" ≠ Except.ok "https:" :=
  ⟨rfl, by decide⟩

/-- C8 counterexample: normalize_base_url is not total on the code path the
claim describes; an unbalanced bracket in the authority raises ValueError
(Invalid IPv6 URL) in Python instead of degrading to the empty string. -/
theorem C8_counterexample :
    normalize_base_url "[" = Except.error "Invalid IPv6 URL" := by
  rfl

theorem alookup_nil (k : String) : alookup [] k = Option.none := rfl

theorem alookup_cons (p : String × MinerRecord) (t : List (String × MinerRecord))
    (k : String) :
    alookup (p :: t) k = if p.1 = k then Option.some p.2 else alookup t k := by
  by_cases hp : p.1 = k <;> simp [alookup, List.find?_cons, hp]

theorem areplace_cons (p : String × MinerRecord) (t : List (String × MinerRecord))
    (k : String) (v : MinerRecord) :
    areplace (p :: t) k v = (if p.1 = k then (k, v) else p) :: areplace t k v := by
  simp only [areplace, List.map_cons]

theorem alookup_mem {agg : List (String × MinerRecord)} {k : String} {r : MinerRecord}
    (h : alookup agg k = Option.some r) : (k, r) ∈ agg := by
  induction agg with
  | nil => cases h
  | cons p t ih =>
    rw [alookup_cons] at h
    by_cases hp : p.1 = k
    · rw [if_pos hp] at h
      have hpr : p.2 = r := by injection h
      have hpe : p = (k, r) := by
        cases p
        cases hp
        cases hpr
        rfl
      rw [hpe]
      exact List.mem_cons_self _ _
    · rw [if_neg hp] at h
      exact List.mem_cons_of_mem _ (ih h)

theorem alookup_append_self {agg : List (String × MinerRecord)} {k : String} {v : MinerRecord}
    (h : alookup agg k = Option.none) :
    alookup (agg ++ [(k, v)]) k = Option.some v := by
  induction agg with
  | nil => simp [alookup]
  | cons p t ih =>
    rw [alookup_cons] at h
    rw [List.cons_append, alookup_cons]
    by_cases hp : p.1 = k
    · rw [if_pos hp] at h; cases h
    · rw [if_neg hp] at h ⊢
      exact ih h

theorem alookup_append_other {agg : List (String × MinerRecord)} {k k2 : String}
    {v : MinerRecord} (h : k2 ≠ k) :
    alookup (agg ++ [(k, v)]) k2 = alookup agg k2 := by
  induction agg with
  | nil =>
    rw [List.nil_append, alookup_cons, if_neg (fun hc : (k, v).1 = k2 => h hc.symm)]
  | cons p t ih =>
    rw [List.cons_append, alookup_cons, alookup_cons, ih]

theorem alookup_areplace_self {agg : List (String × MinerRecord)} {k : String}
    {v r : MinerRecord} (h : alookup agg k = Option.some r) :
    alookup (areplace agg k v) k = Option.some v := by
  induction agg with
  | nil => cases h
  | cons p t ih =>
    rw [alookup_cons] at h
    rw [areplace_cons, alookup_cons]
    by_cases hp : p.1 = k
    · rw [if_pos hp]
      simp
    · rw [if_neg hp] at h
      rw [if_neg hp, if_neg hp]
      exact ih h

theorem alookup_areplace_other {agg : List (String × MinerRecord)} {k k2 : String}
    {v : MinerRecord} (h : k2 ≠ k) :
    alookup (areplace agg k v) k2 = alookup agg k2 := by
  induction agg with
  | nil => rfl
  | cons p t ih =>
    rw [areplace_cons, alookup_cons, alookup_cons]
    by_cases hp : p.1 = k
    · rw [if_pos hp, ih]
      have h1 : ¬ ((k, v).1 = k2) := fun hc => h hc.symm
      have h2 : ¬ (p.1 = k2) := hp ▸ h1
      rw [if_neg h1, if_neg h2]
    · rw [if_neg hp, ih]

theorem stepSighting_blank {node : String} {row : Sighting}
    {agg : List (String × MinerRecord)} (hm : pyStrip row.miner = "") :
    stepSighting node row agg = agg := by
  unfold stepSighting
  rw [if_pos hm]

theorem stepSighting_of_none {node : String} {row : Sighting}
    {agg : List (String × MinerRecord)} (hm : pyStrip row.miner ≠ "")
    (h : alookup agg (pyStrip row.miner) = Option.none) :
    stepSighting node row agg =
      agg ++ [(pyStrip row.miner, freshRecord (pyStrip row.miner) node row)] := by
  unfold stepSighting
  rw [if_neg hm, h]

theorem stepSighting_of_some {node : String} {row : Sighting}
    {agg : List (String × MinerRecord)} {ex : MinerRecord} (hm : pyStrip row.miner ≠ "")
    (h : alookup agg (pyStrip row.miner) = Option.some ex) :
    stepSighting node row agg = areplace agg (pyStrip row.miner) (updatedRec node row ex) := by
  unfold stepSighting
  rw [if_neg hm, h]

theorem alookup_step_other {node : String} {row : Sighting}
    {agg : List (String × MinerRecord)} {mid : String} (h : mid ≠ pyStrip row.miner) :
    alookup (stepSighting node row agg) mid = alookup agg mid := by
  by_cases hm : pyStrip row.miner = ""
  · rw [stepSighting_blank hm]
  · cases hl : alookup agg (pyStrip row.miner) with
    | none => rw [stepSighting_of_none hm hl, alookup_append_other h]
    | some ex => rw [stepSighting_of_some hm hl, alookup_areplace_other h]

theorem goodRec_fresh {mid node : String} {row : Sighting} (hm : mid ≠ "") :
    goodRec mid (freshRecord mid node row) := by
  refine ⟨rfl, hm, by simp [freshRecord], by simp [freshRecord], ?_⟩
  intro t ht
  simp only [freshRecord] at ht
  split at ht
  · cases ht; assumption
  · cases ht

theorem bumpLA_ns {row : Sighting} {ex : MinerRecord} :
    (bumpLA row ex).nodes_seen = ex.nodes_seen := by
  unfold bumpLA
  split <;> rfl

theorem bumpLA_miner {row : Sighting} {ex : MinerRecord} :
    (bumpLA row ex).miner = ex.miner := by
  unfold bumpLA
  split <;> rfl

theorem bumpLA_la {row : Sighting} {ex : MinerRecord}
    (hg : ∀ t, ex.last_attest = Option.some t → 0 < t) :
    (bumpLA row ex).last_attest =
      if 0 < minerTs row then omax ex.last_attest (minerTs row) else ex.last_attest := by
  unfold bumpLA
  cases hla : ex.last_attest with
  | none =>
    simp only [hla, Option.getD_none, omax]
    by_cases hpos : 0 < minerTs row
    · rw [if_pos ⟨by omega, hpos⟩, if_pos hpos]
    · rw [if_neg (by omega), if_neg hpos, hla]
  | some b =>
    have hb : 0 < b := hg b hla
    simp only [hla, Option.getD_some, omax]
    by_cases hpos : 0 < minerTs row
    · by_cases hlt : b < minerTs row
      · rw [if_pos ⟨by omega, hlt⟩, if_pos hpos]
        simp [max_eq_right (le_of_lt hlt)]
      · rw [if_neg (by omega), if_pos hpos, hla]
        simp [max_eq_left (not_lt.mp hlt)]
    · rw [if_neg (by omega), if_neg hpos, hla]

theorem addNode_la {node : String} {ex2 : MinerRecord} :
    (addNode node ex2).last_attest = ex2.last_attest := by
  unfold addNode
  split <;> rfl

theorem addNode_miner {node : String} {ex2 : MinerRecord} :
    (addNode node ex2).miner = ex2.miner := by
  unfold addNode
  split <;> rfl

theorem addNode_ns_mem {node : String} {ex2 : MinerRecord} (n : String) :
    n ∈ (addNode node ex2).nodes_seen ↔ n ∈ ex2.nodes_seen ∨ n = node := by
  unfold addNode
  split <;> rename_i hmem
  · constructor
    · exact fun h => Or.inl h
    · rintro (h | rfl)
      · exact h
      · exact hmem
  · simp only [List.mem_append, List.mem_singleton]

theorem updatedRec_miner {node : String} {row : Sighting} {ex : MinerRecord} :
    (updatedRec node row ex).miner = ex.miner := by
  unfold updatedRec
  rw [addNode_miner, bumpLA_miner]

theorem updatedRec_la {node : String} {row : Sighting} {ex : MinerRecord}
    (hg : ∀ t, ex.last_attest = Option.some t → 0 < t) :
    (updatedRec node row ex).last_attest =
      if 0 < minerTs row then omax ex.last_attest (minerTs row) else ex.last_attest := by
  unfold updatedRec
  rw [addNode_la, bumpLA_la hg]

theorem updatedRec_ns_mem {node : String} {row : Sighting} {ex : MinerRecord} (n : String) :
    n ∈ (updatedRec node row ex).nodes_seen ↔ n ∈ ex.nodes_seen ∨ n = node := by
  unfold updatedRec
  rw [addNode_ns_mem, bumpLA_ns]

theorem updatedRec_ns_nodup {node : String} {row : Sighting} {ex : MinerRecord}
    (h : ex.nodes_seen.Nodup) : (updatedRec node row ex).nodes_seen.Nodup := by
  unfold updatedRec addNode
  split <;> rename_i hmem <;> rw [bumpLA_ns] at hmem ⊢
  · exact h
  · simpa [List.nodup_append] using ⟨h, hmem⟩

theorem updatedRec_ns_ne_nil {node : String} {row : Sighting} {ex : MinerRecord}
    (h : ex.nodes_seen ≠ []) : (updatedRec node row ex).nodes_seen ≠ [] := by
  unfold updatedRec addNode
  split <;> rw [bumpLA_ns] at *
  · exact h
  · simp

theorem goodRec_updated {mid node : String} {row : Sighting} {ex : MinerRecord}
    (h : goodRec mid ex) : goodRec mid (updatedRec node row ex) := by
  obtain ⟨h1, h2, h3, h4, h5⟩ := h
  refine ⟨updatedRec_miner.trans h1, h2, updatedRec_ns_ne_nil h3, updatedRec_ns_nodup h4, ?_⟩
  intro t ht
  rw [updatedRec_la h5] at ht
  by_cases hpos : 0 < minerTs row
  · rw [if_pos hpos] at ht
    cases hla : ex.last_attest with
    | none => rw [hla] at ht; simp only [omax] at ht; cases ht; exact hpos
    | some b =>
      rw [hla] at ht
      simp only [omax] at ht
      cases ht
      exact lt_max_of_lt_left (h5 b hla)
  · rw [if_neg hpos] at ht
    exact h5 t ht

theorem goodAgg_step {agg : List (String × MinerRecord)} {node : String} {row : Sighting}
    (h : goodAgg agg) : goodAgg (stepSighting node row agg) := by
  by_cases hm : pyStrip row.miner = ""
  · rw [stepSighting_blank hm]; exact h
  · cases hl : alookup agg (pyStrip row.miner) with
    | none =>
      rw [stepSighting_of_none hm hl]
      intro p hp
      rcases List.mem_append.mp hp with hp1 | hp2
      · exact h p hp1
      · rcases List.mem_singleton.mp hp2 with rfl
        exact goodRec_fresh hm
    | some ex =>
      rw [stepSighting_of_some hm hl]
      intro p hp
      obtain ⟨q, hq, hfq⟩ := List.mem_map.mp hp
      by_cases hqk : q.1 = pyStrip row.miner
      · rw [if_pos hqk] at hfq
        rcases hfq.symm with rfl
        have hex : goodRec (pyStrip row.miner) ex := by
          have := h _ (alookup_mem hl)
          simpa using this
        exact goodRec_updated hex
      · rw [if_neg hqk] at hfq
        rw [← hfq]
        exact h q hq

theorem goodAgg_foldPairs {ps : List (String × Sighting)} {acc : List (String × MinerRecord)}
    (h : goodAgg acc) : goodAgg (foldPairs ps acc) := by
  induction ps generalizing acc with
  | nil => exact h
  | cons p ps ih => exact ih (goodAgg_step h)

theorem aggregate_eq_foldPairs (nm : List (String × List Sighting)) :
    _aggregate_miners nm = foldPairs (sightingPairs nm) [] := by
  suffices hgen : ∀ (nm : List (String × List Sighting)) (acc : List (String × MinerRecord)),
      nm.foldl (fun agg nr => nr.2.foldl (fun a row => stepSighting nr.1 row a) agg) acc =
        foldPairs (sightingPairs nm) acc from hgen nm []
  intro nm
  induction nm with
  | nil => intro acc; rfl
  | cons x nm ih =>
    intro acc
    simp only [List.foldl_cons, sightingPairs, List.flatMap_cons, foldPairs,
      List.foldl_append, List.foldl_map]
    rw [← foldPairs, ← sightingPairs, ih]

/-- C10: every record produced by the miner aggregator has a nonempty miner
id equal to its map key, a nonempty nodes_seen list, and a last_attest that
is either absent or strictly positive. -/
theorem C10_aggregate_record_invariants (nm : List (String × List Sighting))
    (p : String × MinerRecord) (hp : p ∈ _aggregate_miners nm) :
    p.2.miner = p.1 ∧ p.1 ≠ "" ∧ p.2.nodes_seen ≠ [] ∧
      ∀ t, p.2.last_attest = Option.some t → 0 < t := by
  rw [aggregate_eq_foldPairs] at hp
  have hgood : goodAgg (foldPairs (sightingPairs nm) []) :=
    goodAgg_foldPairs (fun q hq => absurd hq (List.not_mem_nil q))
  obtain ⟨h1, h2, h3, _, h5⟩ := hgood p hp
  exact ⟨h1, h2, h3, h5⟩

/-- Witness for C10 on a concrete aggregation. -/
theorem C10_aggregate_record_invariants_witness :
    (("m", freshRecord "m" "n1" cexSightA) ∈ _aggregate_miners [("n1", [cexSightA])]) ∧
    (freshRecord "m" "n1" cexSightA).miner = "m" ∧ ("m" : String) ≠ "" ∧
    (freshRecord "m" "n1" cexSightA).nodes_seen ≠ [] := by
  have h := C10_aggregate_record_invariants [("n1", [cexSightA])]
    ("m", freshRecord "m" "n1" cexSightA) (by decide)
  exact ⟨by decide, h.1, h.2.1, h.2.2.1⟩

theorem tsOfPairs_cons (p : String × Sighting) (ps : List (String × Sighting))
    (mid : String) :
    tsOfPairs (p :: ps) mid =
      (if pyStrip p.2.miner = mid then
        (if 0 < minerTs p.2 then [minerTs p.2] else []) else []) ++ tsOfPairs ps mid := by
  by_cases hm : pyStrip p.2.miner = mid
  · by_cases hp : 0 < minerTs p.2 <;> simp [tsOfPairs, List.filter_cons, hm, hp]
  · simp [tsOfPairs, List.filter_cons, hm]

theorem nodesOfPairs_cons (p : String × Sighting) (ps : List (String × Sighting))
    (mid : String) :
    nodesOfPairs (p :: ps) mid =
      (if pyStrip p.2.miner = mid then [p.1] else []) ++ nodesOfPairs ps mid := by
  by_cases hm : pyStrip p.2.miner = mid <;> simp [nodesOfPairs, List.filter_cons, hm]

theorem freshRecord_la_eq (mid node : String) (row : Sighting) :
    (freshRecord mid node row).last_attest =
      (if 0 < minerTs row then [minerTs row] else []).foldl omax Option.none := by
  by_cases hp : 0 < minerTs row <;> simp [freshRecord, hp, omax]

theorem foldPairs_char (mid : String) (hmid : mid ≠ "") :
    ∀ (ps : List (String × Sighting)) (acc : List (String × MinerRecord)), goodAgg acc →
      (alookup (foldPairs ps acc) mid = Option.none ↔
        alookup acc mid = Option.none ∧ nodesOfPairs ps mid = []) ∧
      (∀ r2, alookup (foldPairs ps acc) mid = Option.some r2 →
        r2.last_attest =
          (tsOfPairs ps mid).foldl omax ((alookup acc mid).bind MinerRecord.last_attest) ∧
        ∀ n, n ∈ r2.nodes_seen ↔
          ((∃ r, alookup acc mid = Option.some r ∧ n ∈ r.nodes_seen) ∨
            n ∈ nodesOfPairs ps mid)) := by
  intro ps
  induction ps with
  | nil =>
    intro acc hacc
    constructor
    · simp [foldPairs, nodesOfPairs]
    · intro r2 h
      rw [show foldPairs [] acc = acc from rfl] at h
      constructor
      · rw [h]
        rfl
      · intro n
        rw [h]
        simp [nodesOfPairs]
  | cons p ps ih =>
    intro acc hacc
    have hstep : goodAgg (stepSighting p.1 p.2 acc) := goodAgg_step hacc
    have hfold : foldPairs (p :: ps) acc = foldPairs ps (stepSighting p.1 p.2 acc) := rfl
    obtain ⟨ih1, ih2⟩ := ih (stepSighting p.1 p.2 acc) hstep
    by_cases hm2 : pyStrip p.2.miner = mid
    · subst hm2
      cases hl : alookup acc (pyStrip p.2.miner) with
      | none =>
        have hs := @stepSighting_of_none p.1 p.2 acc hmid hl
        have halook : alookup (stepSighting p.1 p.2 acc) (pyStrip p.2.miner) =
            Option.some (freshRecord (pyStrip p.2.miner) p.1 p.2) := by
          rw [hs]
          exact alookup_append_self hl
        constructor
        · rw [hfold, ih1, halook, nodesOfPairs_cons, if_pos rfl]
          simp
        · intro r2 h
          rw [hfold] at h
          obtain ⟨hla, hns⟩ := ih2 r2 h
          constructor
          · rw [hla, halook, tsOfPairs_cons, if_pos rfl, List.foldl_append]
            congr 1
            show (freshRecord (pyStrip p.2.miner) p.1 p.2).last_attest = _
            exact freshRecord_la_eq _ _ _
          · intro n
            rw [hns n, halook, nodesOfPairs_cons, if_pos rfl]
            simp [freshRecord]
      | some ex =>
        have hgex : goodRec (pyStrip p.2.miner) ex := hacc _ (alookup_mem hl)
        have hs := @stepSighting_of_some p.1 p.2 acc ex hmid hl
        have halook : alookup (stepSighting p.1 p.2 acc) (pyStrip p.2.miner) =
            Option.some (updatedRec p.1 p.2 ex) := by
          rw [hs]
          exact alookup_areplace_self hl
        constructor
        · rw [hfold, ih1, halook, nodesOfPairs_cons, if_pos rfl]
          simp
        · intro r2 h
          rw [hfold] at h
          obtain ⟨hla, hns⟩ := ih2 r2 h
          constructor
          · rw [hla, halook, tsOfPairs_cons, if_pos rfl, List.foldl_append]
            congr 1
            show (updatedRec p.1 p.2 ex).last_attest = _
            rw [updatedRec_la hgex.2.2.2.2]
            by_cases hp : 0 < minerTs p.2
            · rw [if_pos hp, if_pos hp]
              rfl
            · rw [if_neg hp, if_neg hp]
              rfl
          · intro n
            rw [hns n, halook, nodesOfPairs_cons, if_pos rfl]
            simp only [Option.some.injEq, List.cons_append, List.nil_append,
              List.mem_cons]
            constructor
            · rintro (⟨r, hr, hn⟩ | hn)
              · rw [← hr] at hn
                rw [updatedRec_ns_mem] at hn
                rcases hn with hn | rfl
                · exact Or.inl ⟨ex, rfl, hn⟩
                · exact Or.inr (Or.inl rfl)
              · exact Or.inr (Or.inr hn)
            · rintro (⟨r, hr, hn⟩ | rfl | hn)
              · rw [← hr] at hn
                exact Or.inl ⟨updatedRec p.1 p.2 ex, rfl, (updatedRec_ns_mem n).mpr (Or.inl hn)⟩
              · exact Or.inl ⟨updatedRec p.1 p.2 ex, rfl, (updatedRec_ns_mem _).mpr (Or.inr rfl)⟩
              · exact Or.inr hn
    · have hlook : alookup (stepSighting p.1 p.2 acc) mid = alookup acc mid :=
        alookup_step_other (fun hc => hm2 hc.symm)
      have hts : tsOfPairs (p :: ps) mid = tsOfPairs ps mid := by
        rw [tsOfPairs_cons, if_neg hm2, List.nil_append]
      have hnd : nodesOfPairs (p :: ps) mid = nodesOfPairs ps mid := by
        rw [nodesOfPairs_cons, if_neg hm2, List.nil_append]
      constructor
      · rw [hfold, ih1, hlook, hnd]
      · intro r2 h
        rw [hfold] at h
        obtain ⟨hla, hns⟩ := ih2 r2 h
        constructor
        · rw [hla, hlook, hts]
        · intro n
          rw [hns n, hlook, hnd]

theorem aggregate_none_iff {nm : List (String × List Sighting)} {mid : String}
    (hmid : mid ≠ "") :
    alookup (_aggregate_miners nm) mid = Option.none ↔ contribNodes nm mid = [] := by
  rw [aggregate_eq_foldPairs]
  have h := (foldPairs_char mid hmid (sightingPairs nm) []
    (fun q hq => absurd hq (List.not_mem_nil q))).1
  rw [h, alookup_nil]
  simp [contribNodes]

theorem aggregate_some_char {nm : List (String × List Sighting)} {mid : String}
    {r : MinerRecord} (hmid : mid ≠ "")
    (h : alookup (_aggregate_miners nm) mid = Option.some r) :
    r.last_attest = specLast nm mid ∧ r.nodes_seen.Nodup ∧
      ∀ n, n ∈ r.nodes_seen ↔ n ∈ contribNodes nm mid := by
  have hgood : goodAgg (_aggregate_miners nm) := by
    rw [aggregate_eq_foldPairs]
    exact goodAgg_foldPairs (fun q hq => absurd hq (List.not_mem_nil q))
  have hnodup : r.nodes_seen.Nodup := (hgood _ (alookup_mem h)).2.2.2.1
  rw [aggregate_eq_foldPairs] at h
  obtain ⟨hla, hns⟩ := (foldPairs_char mid hmid (sightingPairs nm) []
    (fun q hq => absurd hq (List.not_mem_nil q))).2 r h
  rw [alookup_nil] at hla hns
  refine ⟨hla, hnodup, fun n => (hns n).trans ?_⟩
  simp [contribNodes]

theorem aggregate_mem_ns_iff {nm : List (String × List Sighting)} {mid : String}
    (hmid : mid ≠ "") (n : String) :
    (∃ r, alookup (_aggregate_miners nm) mid = Option.some r ∧ n ∈ r.nodes_seen) ↔
      n ∈ contribNodes nm mid := by
  constructor
  · rintro ⟨r, hr, hn⟩
    exact ((aggregate_some_char hmid hr).2.2 n).mp hn
  · intro hn
    cases hl : alookup (_aggregate_miners nm) mid with
    | none =>
      rw [aggregate_none_iff hmid] at hl
      rw [hl] at hn
      cases hn
    | some r =>
      exact ⟨r, rfl, ((aggregate_some_char hmid hl).2.2 n).mpr hn⟩

theorem omax_right_comm (a : Option Int) (x y : Int) :
    omax (omax a x) y = omax (omax a y) x := by
  cases a with
  | none => simp [omax, max_comm x y]
  | some b =>
    show Option.some (max (max b x) y) = Option.some (max (max b y) x)
    rw [sup_right_comm]

theorem foldl_omax_perm {l1 l2 : List Int} (h : l1.Perm l2) :
    ∀ a, l1.foldl omax a = l2.foldl omax a := by
  induction h with
  | nil => intro a; rfl
  | cons x _ ih =>
    intro a
    simp only [List.foldl_cons]
    exact ih _
  | swap x y l =>
    intro a
    simp only [List.foldl_cons]
    rw [omax_right_comm]
  | trans _ _ ih1 ih2 =>
    intro a
    rw [ih1, ih2]

theorem posTimes_perm {nm1 nm2 : List (String × List Sighting)} (h : nm1.Perm nm2)
    (mid : String) : (posTimes nm1 mid).Perm (posTimes nm2 mid) :=
  (((h.flatMap_right _).filter _).map _).filter _

theorem contribNodes_perm {nm1 nm2 : List (String × List Sighting)} (h : nm1.Perm nm2)
    (mid : String) : (contribNodes nm1 mid).Perm (contribNodes nm2 mid) :=
  ((h.flatMap_right _).filter _).map _

theorem specLast_perm {nm1 nm2 : List (String × List Sighting)} (h : nm1.Perm nm2)
    (mid : String) : specLast nm1 mid = specLast nm2 mid :=
  foldl_omax_perm (posTimes_perm h mid) Option.none

theorem sightingPairs_append (nm ext : List (String × List Sighting)) :
    sightingPairs (nm ++ ext) = sightingPairs nm ++ sightingPairs ext := by
  simp [sightingPairs]

theorem posTimes_append (nm ext : List (String × List Sighting)) (mid : String) :
    posTimes (nm ++ ext) mid = posTimes nm mid ++ posTimes ext mid := by
  simp [posTimes, tsOfPairs, sightingPairs_append, List.filter_append, List.map_append]

theorem contribNodes_append (nm ext : List (String × List Sighting)) (mid : String) :
    contribNodes (nm ++ ext) mid = contribNodes nm mid ++ contribNodes ext mid := by
  simp [contribNodes, nodesOfPairs, sightingPairs_append, List.filter_append,
    List.map_append]

theorem laLE_foldl : ∀ (l : List Int) (a : Option Int), laLE a (l.foldl omax a) := by
  intro l
  induction l with
  | nil => exact fun a x hx => ⟨x, hx, le_refl x⟩
  | cons t l ih =>
    intro a x hx
    have h1 : omax a t = Option.some (max x t) := by rw [hx]; rfl
    obtain ⟨y, hy, hxy⟩ := ih (omax a t) (max x t) h1
    refine ⟨y, ?_, le_trans (le_max_left x t) hxy⟩
    simpa using hy

theorem foldl_omax_isSome : ∀ (l : List Int) (b : Int),
    l.foldl omax (Option.some b) ≠ Option.none := by
  intro l
  induction l with
  | nil => intro b h; cases h
  | cons t l ih =>
    intro b
    simp only [List.foldl_cons, omax]
    exact ih (max b t)

theorem foldl_omax_some_char : ∀ (l : List Int) (a : Option Int) (m : Int),
    l.foldl omax a = Option.some m →
      (a = Option.some m ∨ m ∈ l) ∧ (∀ t ∈ l, t ≤ m) ∧
        (∀ b, a = Option.some b → b ≤ m) := by
  intro l
  induction l with
  | nil =>
    intro a m h
    refine ⟨Or.inl h, by simp, fun b hb => ?_⟩
    rw [hb] at h
    injection h with h
    exact le_of_eq h
  | cons t l ih =>
    intro a m h
    rw [List.foldl_cons] at h
    obtain ⟨h1, h2, h3⟩ := ih (omax a t) m h
    have hbound : ∀ b, a = Option.some b → b ≤ m := by
      intro b hb
      have : omax a t = Option.some (max b t) := by rw [hb]; rfl
      exact le_trans (le_max_left b t) (h3 _ this)
    have htm : t ≤ m := by
      cases ha : a with
      | none =>
        have : omax a t = Option.some t := by rw [ha]; rfl
        exact h3 t this
      | some b =>
        have : omax a t = Option.some (max b t) := by rw [ha]; rfl
        exact le_trans (le_max_right b t) (h3 _ this)
    refine ⟨?_, ?_, hbound⟩
    · rcases h1 with h1 | h1
      · cases ha : a with
        | none =>
          rw [ha] at h1
          simp only [omax] at h1
          injection h1 with h1
          exact Or.inr (h1 ▸ List.mem_cons_self t l)
        | some b =>
          rw [ha] at h1
          simp only [omax] at h1
          injection h1 with h1
          rcases max_choice b t with hc | hc
          · exact Or.inl (by rw [← h1, hc])
          · exact Or.inr (by rw [← h1, hc]; exact List.mem_cons_self t l)
      · exact Or.inr (List.mem_cons_of_mem _ h1)
    · intro s hs
      rcases List.mem_cons.mp hs with rfl | hs
      · exact htm
      · exact h2 s hs

theorem specLast_none_iff (nm : List (String × List Sighting)) (mid : String) :
    specLast nm mid = Option.none ↔ posTimes nm mid = [] := by
  unfold specLast
  cases hp : posTimes nm mid with
  | nil => simp
  | cons t l =>
    simp only [List.foldl_cons]
    constructor
    · intro h
      exact absurd h (by
        have : omax Option.none t = Option.some t := rfl
        rw [this]
        exact foldl_omax_isSome l t)
    · intro h
      cases h

/-- C1 amended: aggregation is order-independent for last_attest and for the
set of nodes_seen, but not for the whole record (see the counterexample): for
every input and nonempty miner id, the record exists exactly when some
sighting contributes, its last_attest is the running maximum of the positive
contributed timestamps (absent when there are none, the maximum of them
otherwise), its nodes_seen holds each contributing node exactly once (no
duplicates, even when one node reports the miner twice), both are invariant
under permutation of the node list, and last_attest never decreases as more
sightings are folded in. -/
theorem C1_aggregation_order_amended :
    (∀ nm mid r, mid ≠ "" → alookup (_aggregate_miners nm) mid = Option.some r →
      r.last_attest = specLast nm mid ∧ r.nodes_seen.Nodup ∧
        ∀ n, n ∈ r.nodes_seen ↔ n ∈ contribNodes nm mid) ∧
    (∀ nm mid, mid ≠ "" →
      (alookup (_aggregate_miners nm) mid = Option.none ↔ contribNodes nm mid = [])) ∧
    (∀ nm1 nm2 mid, mid ≠ "" → nm1.Perm nm2 →
      ((alookup (_aggregate_miners nm1) mid).bind MinerRecord.last_attest =
        (alookup (_aggregate_miners nm2) mid).bind MinerRecord.last_attest) ∧
      ∀ n, (∃ r, alookup (_aggregate_miners nm1) mid = Option.some r ∧ n ∈ r.nodes_seen) ↔
        (∃ r, alookup (_aggregate_miners nm2) mid = Option.some r ∧ n ∈ r.nodes_seen)) ∧
    (∀ nm ext mid, mid ≠ "" →
      laLE ((alookup (_aggregate_miners nm) mid).bind MinerRecord.last_attest)
        ((alookup (_aggregate_miners (nm ++ ext)) mid).bind MinerRecord.last_attest)) ∧
    (∀ nm mid m, specLast nm mid = Option.some m →
      m ∈ posTimes nm mid ∧ ∀ t ∈ posTimes nm mid, t ≤ m) ∧
    (∀ nm mid, specLast nm mid = Option.none ↔ posTimes nm mid = []) := by
  refine ⟨?_, ?_, ?_, ?_, ?_, ?_⟩
  · intro nm mid r hmid h
    exact aggregate_some_char hmid h
  · intro nm mid hmid
    exact aggregate_none_iff hmid
  · intro nm1 nm2 mid hmid hperm
    constructor
    · cases hl1 : alookup (_aggregate_miners nm1) mid with
      | none =>
        have hc1 : contribNodes nm1 mid = [] := (aggregate_none_iff hmid).mp hl1
        have hc2 : contribNodes nm2 mid = [] :=
          List.Perm.eq_nil (hc1 ▸ (contribNodes_perm hperm mid).symm)
        rw [(aggregate_none_iff hmid).mpr hc2]
      | some r1 =>
        have h1 := aggregate_some_char hmid hl1
        cases hl2 : alookup (_aggregate_miners nm2) mid with
        | none =>
          exfalso
          have hc2 := (aggregate_none_iff hmid).mp hl2
          have hc1 : contribNodes nm1 mid = [] :=
            List.Perm.eq_nil (hc2 ▸ (contribNodes_perm hperm mid))
          rw [(aggregate_none_iff hmid).mpr hc1] at hl1
          cases hl1
        | some r2 =>
          have h2 := aggregate_some_char hmid hl2
          show (Option.some r1).bind MinerRecord.last_attest =
            (Option.some r2).bind MinerRecord.last_attest
          show r1.last_attest = r2.last_attest
          rw [h1.1, h2.1]
          exact specLast_perm hperm mid
    · intro n
      rw [aggregate_mem_ns_iff hmid, aggregate_mem_ns_iff hmid]
      exact (contribNodes_perm hperm mid).mem_iff
  · intro nm ext mid hmid
    cases hl1 : alookup (_aggregate_miners nm) mid with
    | none => intro x hx; cases hx
    | some r1 =>
      have h1 := aggregate_some_char hmid hl1
      have hcne : contribNodes nm mid ≠ [] := by
        intro hc
        rw [(aggregate_none_iff hmid).mpr hc] at hl1
        cases hl1
      have hcne2 : contribNodes (nm ++ ext) mid ≠ [] := by
        rw [contribNodes_append]
        intro hc
        exact hcne (List.append_eq_nil.mp hc).1
      cases hl2 : alookup (_aggregate_miners (nm ++ ext)) mid with
      | none =>
        exact absurd ((aggregate_none_iff hmid).mp hl2) hcne2
      | some r2 =>
        have h2 := aggregate_some_char hmid hl2
        intro x hx
        have hx2 : r1.last_attest = Option.some x := hx
        have hsx : specLast nm mid = Option.some x := by
          rw [← h1.1]
          exact hx2
        obtain ⟨y, hy, hxy⟩ := laLE_foldl (posTimes ext mid) (specLast nm mid) x hsx
        show ∃ y, (Option.some r2).bind MinerRecord.last_attest = Option.some y ∧ x ≤ y
        refine ⟨y, ?_, hxy⟩
        show r2.last_attest = Option.some y
        rw [h2.1]
        unfold specLast at hy ⊢
        rw [posTimes_append, List.foldl_append]
        exact hy
  · intro nm mid m h
    have := foldl_omax_some_char (posTimes nm mid) Option.none m h
    refine ⟨?_, this.2.1⟩
    rcases this.1 with h1 | h1
    · cases h1
    · exact h1
  · intro nm mid
    exact specLast_none_iff nm mid

/-- Witness for C1 at a concrete aggregation: the two node orders agree on
last_attest, and miner m is recorded with the maximum positive timestamp. -/
theorem C1_aggregation_order_amended_witness :
    (alookup (_aggregate_miners [("n1", [cexSightA]), ("n2", [cexSightB])]) "m").bind
        MinerRecord.last_attest =
      (alookup (_aggregate_miners [("n2", [cexSightB]), ("n1", [cexSightA])]) "m").bind
        MinerRecord.last_attest ∧
    (alookup (_aggregate_miners [("n1", [cexSightA]), ("n2", [cexSightB])]) "m").bind
        MinerRecord.last_attest = Option.some 20 := by
  have hperm : ([("n1", [cexSightA]), ("n2", [cexSightB])] :
      List (String × List Sighting)).Perm [("n2", [cexSightB]), ("n1", [cexSightA])] :=
    List.Perm.swap _ _ _
  refine ⟨(C1_aggregation_order_amended.2.2.1 _ _ "m" (by decide) hperm).1, ?_⟩
  have h := C1_aggregation_order_amended.1 [("n1", [cexSightA]), ("n2", [cexSightB])] "m"
    (freshRecord "m" "n1" cexSightA |> updatedRec "n2" cexSightB) (by decide) (by decide)
  rw [show alookup (_aggregate_miners [("n1", [cexSightA]), ("n2", [cexSightB])]) "m" =
    Option.some (freshRecord "m" "n1" cexSightA |> updatedRec "n2" cexSightB) from by decide]
  show (freshRecord "m" "n1" cexSightA |> updatedRec "n2" cexSightB).last_attest =
    Option.some 20
  rw [h.1]
  decide

theorem except_bind_ok {α β : Type} (e : Except String α) (f : α → Except String β)
    (b : β) :
    (e >>= f = Except.ok b) ↔ ∃ a, e = Except.ok a ∧ f a = Except.ok b := by
  cases e <;> simp [Bind.bind, Except.bind]

theorem firstOccurrencesAux_congr : ∀ (f1 : Nat), ∀ (f2 : Nat) (l : List (String × String)),
    l.length ≤ f1 → l.length ≤ f2 → firstOccurrencesAux f1 l = firstOccurrencesAux f2 l := by
  intro f1
  induction f1 with
  | zero =>
    intro f2 l h1 _
    rw [List.length_eq_zero.mp (Nat.le_zero.mp h1)]
    cases f2 <;> rfl
  | succ n ih =>
    intro f2 l h1 h2
    cases l with
    | nil => cases f2 <;> rfl
    | cons p ps =>
      cases f2 with
      | zero => exact absurd h2 (by simp)
      | succ m =>
        show p :: firstOccurrencesAux n (ps.filter (fun q => q.2 ≠ p.2)) =
          p :: firstOccurrencesAux m (ps.filter (fun q => q.2 ≠ p.2))
        congr 1
        exact ih m _ (le_trans (List.length_filter_le _ _) (Nat.lt_succ_iff.mp h1))
          (le_trans (List.length_filter_le _ _) (Nat.lt_succ_iff.mp h2))

theorem firstOccurrences_cons (p : String × String) (ps : List (String × String)) :
    firstOccurrences (p :: ps) =
      p :: firstOccurrences (ps.filter (fun q => q.2 ≠ p.2)) := by
  show firstOccurrencesAux (p :: ps).length (p :: ps) = _
  rw [List.length_cons]
  show p :: firstOccurrencesAux ps.length (ps.filter (fun q => q.2 ≠ p.2)) = _
  congr 1
  exact firstOccurrencesAux_congr _ _ _ (List.length_filter_le _ _) (le_refl _)

theorem foldlM_dedupeStep_ok : ∀ (vs : List String) (st out : List String × List String),
    vs.foldlM dedupeStep st = Except.ok out ↔
      ∃ pairs, normIdPairs vs = Except.ok pairs ∧ out = dedupeSeen st pairs := by
  intro vs
  induction vs with
  | nil =>
    intro st out
    show (pure st : Except String _) = Except.ok out ↔ _
    constructor
    · intro h
      refine ⟨[], rfl, ?_⟩
      have : st = out := by injection h
      rw [← this]
      rfl
    · rintro ⟨pairs, hp, rfl⟩
      have : pairs = [] := by injection hp with hp; exact hp.symm
      rw [this]
      rfl
  | cons v vs ih =>
    intro st out
    rw [List.foldlM_cons, except_bind_ok]
    show _ ↔ ∃ pairs,
      (normalize_base_url v >>= fun n =>
        if n = "" then normIdPairs vs
        else node_identity n >>= fun k => normIdPairs vs >>= fun rest =>
          pure ((n, k) :: rest)) = Except.ok pairs ∧ out = dedupeSeen st pairs
    unfold dedupeStep
    cases hn : normalize_base_url v with
    | error e =>
      constructor
      · rintro ⟨st2, hst2, _⟩
        exact absurd hst2 (by simp [Bind.bind, Except.bind])
      · rintro ⟨pairs, hp, _⟩
        exact absurd hp (by simp [Bind.bind, Except.bind])
    | ok n =>
      show (∃ st2, (Except.ok n >>= fun norm =>
          if norm = "" then pure st
          else node_identity norm >>= fun key =>
            if key ∈ st.2 then pure st else pure (st.1 ++ [norm], st.2 ++ [key])) =
            Except.ok st2 ∧ vs.foldlM dedupeStep st2 = Except.ok out) ↔ _
      have hred : ∀ (g : String → Except String (List String × List String)),
          (Except.ok n >>= g) = g n := fun g => rfl
      have hred2 : ∀ (g : String → Except String (List (String × String))),
          (Except.ok n >>= g) = g n := fun g => rfl
      rw [hred]
      conv_rhs => rw [hred2]
      by_cases hne : n = ""
      · rw [if_pos hne, if_pos hne]
        constructor
        · rintro ⟨st2, hst2, hfold⟩
          have hst : st = st2 := by injection hst2
          rw [hst]
          exact ih st2 out |>.mp hfold
        · intro h
          exact ⟨st, rfl, (ih st out).mpr h⟩
      · rw [if_neg hne, if_neg hne]
        cases hk : node_identity n with
        | error e =>
          constructor
          · rintro ⟨st2, hst2, _⟩
            exact absurd hst2 (by simp [Bind.bind, Except.bind])
          · rintro ⟨pairs, hp, _⟩
            exact absurd hp (by simp [Bind.bind, Except.bind])
        | ok k =>
          have hredk : ∀ (g : String → Except String (List String × List String)),
              (Except.ok k >>= g) = g k := fun g => rfl
          have hredk2 : ∀ (g : String → Except String (List (String × String))),
              (Except.ok k >>= g) = g k := fun g => rfl
          rw [hredk]
          conv_rhs => rw [hredk2]
          constructor
          · rintro ⟨st2, hst2, hfold⟩
            obtain ⟨pairs2, hp2, rfl⟩ := (ih st2 out).mp hfold
            refine ⟨(n, k) :: pairs2, ?_, ?_⟩
            · rw [hp2]
              rfl
            · have hst2' : st2 = if k ∈ st.2 then st else (st.1 ++ [n], st.2 ++ [k]) := by
                by_cases hmem : k ∈ st.2
                · rw [if_pos hmem] at hst2 ⊢
                  injection hst2 with h
                  exact h.symm
                · rw [if_neg hmem] at hst2 ⊢
                  injection hst2 with h
                  exact h.symm
              show dedupeSeen st2 pairs2 = dedupeSeen st ((n, k) :: pairs2)
              rw [hst2']
              show _ = if k ∈ st.2 then dedupeSeen st pairs2
                else dedupeSeen (st.1 ++ [n], st.2 ++ [k]) pairs2
              by_cases hmem : k ∈ st.2
              · rw [if_pos hmem, if_pos hmem]
              · rw [if_neg hmem, if_neg hmem]
          · rintro ⟨pairs, hp, rfl⟩
            cases hrest : normIdPairs vs with
            | error e => rw [hrest] at hp; cases hp
            | ok rest =>
              rw [hrest] at hp
              have hpairs : pairs = (n, k) :: rest := by
                have : Except.ok ((n, k) :: rest) = (Except.ok pairs : Except String _) := hp
                injection this with h
                exact h.symm
              subst hpairs
              refine ⟨if k ∈ st.2 then st else (st.1 ++ [n], st.2 ++ [k]), ?_, ?_⟩
              · by_cases hmem : k ∈ st.2
                · rw [if_pos hmem, if_pos hmem]
                  rfl
                · rw [if_neg hmem, if_neg hmem]
                  rfl
              · have : dedupeSeen st ((n, k) :: rest) =
                    dedupeSeen (if k ∈ st.2 then st else (st.1 ++ [n], st.2 ++ [k])) rest := by
                  show (if k ∈ st.2 then dedupeSeen st rest
                    else dedupeSeen (st.1 ++ [n], st.2 ++ [k]) rest) = _
                  by_cases hmem : k ∈ st.2
                  · rw [if_pos hmem, if_pos hmem]
                  · rw [if_neg hmem, if_neg hmem]
                exact (ih _ _).mpr ⟨rest, hrest, this⟩

theorem dedupeSeen_fo : ∀ (pairs : List (String × String)) (st : List String × List String),
    (dedupeSeen st pairs).1 =
      st.1 ++ (firstOccurrences (pairs.filter (fun q => q.2 ∉ st.2))).map Prod.fst := by
  intro pairs
  induction pairs with
  | nil =>
    intro st
    show st.1 = st.1 ++ (firstOccurrences []).map Prod.fst
    simp [firstOccurrences, firstOccurrencesAux]
  | cons p ps ih =>
    intro st
    show (if p.2 ∈ st.2 then dedupeSeen st ps
      else dedupeSeen (st.1 ++ [p.1], st.2 ++ [p.2]) ps).1 = _
    by_cases hmem : p.2 ∈ st.2
    · rw [if_pos hmem, ih st, List.filter_cons, if_neg (by simpa using hmem)]
    · rw [if_neg hmem, ih, List.filter_cons, if_pos (by simpa using hmem),
        firstOccurrences_cons, List.map_cons, List.filter_filter]
      have hfe : (ps.filter (fun q => decide (q.2 ≠ p.2) && decide (q.2 ∉ st.2))) =
          ps.filter (fun q => q.2 ∉ (st.2 ++ [p.2])) := by
        apply List.filter_congr
        intro q _
        by_cases h1 : q.2 = p.2
        · simp [h1]
        · by_cases h2 : q.2 ∈ st.2 <;> simp [h1, h2]
      rw [hfe]
      simp [List.append_assoc]

/-- C5 amended: deduplication behaves exactly as the specification words it
(success for success, same output), and the candidate list of build_report is
the spec deduplication applied to the already-normalized seed followed by the
registry urls and the operator extras; the seed is thus normalized twice,
which coincides with the claimed single normalization except on degenerate
seeds (see the counterexample). -/
theorem C5_candidates_amended :
    (∀ vs out, _dedupe_preserve vs = Except.ok out ↔
      specDedupePreserve vs = Except.ok out) ∧
    (∀ seedRaw rr ex out, candidateUrls seedRaw rr ex = Except.ok out →
      ∃ s, normalize_base_url seedRaw = Except.ok s ∧
        specDedupePreserve (discoveredUrls s rr ex) = Except.ok out) := by
  have hmain : ∀ vs out, _dedupe_preserve vs = Except.ok out ↔
      specDedupePreserve vs = Except.ok out := by
    intro vs out
    unfold _dedupe_preserve specDedupePreserve
    rw [except_bind_ok, except_bind_ok]
    have hflt : ∀ pairs : List (String × String),
        pairs.filter (fun q => q.2 ∉ ([] : List String)) = pairs := by
      intro pairs
      apply List.filter_eq_self.mpr
      intro q _
      simp
    constructor
    · rintro ⟨st, hst, hout⟩
      obtain ⟨pairs, hp, rfl⟩ := (foldlM_dedupeStep_ok vs _ st).mp hst
      refine ⟨pairs, hp, ?_⟩
      have h1 : (dedupeSeen ([], []) pairs).1 = (firstOccurrences pairs).map Prod.fst := by
        rw [dedupeSeen_fo, hflt pairs]
        rfl
      have h2 : (dedupeSeen ([], []) pairs).1 = out := by injection hout
      rw [← h1, h2]
      rfl
    · rintro ⟨pairs, hp, hout⟩
      refine ⟨dedupeSeen ([], []) pairs, (foldlM_dedupeStep_ok vs _ _).mpr ⟨pairs, hp, rfl⟩, ?_⟩
      have h1 : (dedupeSeen ([], []) pairs).1 = (firstOccurrences pairs).map Prod.fst := by
        rw [dedupeSeen_fo, hflt pairs]
        rfl
      have h2 : (firstOccurrences pairs).map Prod.fst = out := by injection hout
      show Except.ok (dedupeSeen ([], []) pairs).1 = Except.ok out
      rw [h1, h2]
  refine ⟨hmain, ?_⟩
  intro seedRaw rr ex out h
  unfold candidateUrls at h
  rw [except_bind_ok] at h
  obtain ⟨s, hs, hd⟩ := h
  exact ⟨s, hs, (hmain _ _).mp hd⟩

/-- Witness for C5: on three concrete inputs the code deduplication and the
spec wording agree, keeping the first spelling of each identity. -/
theorem C5_candidates_amended_witness :
    specDedupePreserve ["https://A", "https://a:443/", "http://a"] =
      Except.ok ["https://A", "http://a"] :=
  (C5_candidates_amended.1 ["https://A", "https://a:443/", "http://a"]
    ["https://A", "http://a"]).mp rfl

theorem mapM_ok_char {α β : Type} (f : α → Except String β) :
    ∀ (l : List α) (ys : List β), l.mapM f = Except.ok ys →
      ys.length = l.length ∧
        ∀ i (hi : i < l.length) (hy : i < ys.length),
          f (l.get ⟨i, hi⟩) = Except.ok (ys.get ⟨i, hy⟩) := by
  intro l
  induction l with
  | nil =>
    intro ys h
    have hys : ys = [] := by
      have : (Except.ok [] : Except String (List β)) = Except.ok ys := h
      injection this with h2
      exact h2.symm
    subst hys
    exact ⟨rfl, fun i hi => absurd hi (by simp)⟩
  | cons a l ih =>
    intro ys h
    rw [List.mapM_cons, except_bind_ok] at h
    obtain ⟨b, hb, h⟩ := h
    rw [except_bind_ok] at h
    obtain ⟨bs, hbs, h⟩ := h
    have hys : ys = b :: bs := by
      have : (Except.ok (b :: bs) : Except String (List β)) = Except.ok ys := h
      injection this with h2
      exact h2.symm
    subst hys
    obtain ⟨hlen, hpt⟩ := ih bs hbs
    refine ⟨by simp [hlen], ?_⟩
    intro i hi hy
    cases i with
    | zero => exact hb
    | succ j => exact hpt j (by simpa using hi) (by simpa using hy)

theorem scanRow_ok {seed networkVersion : String} {rmap : List (String × RegRow)}
    {health miners : String → PyVal × Option String} {u : String} {row : NodeRow}
    (h : scanRow seed networkVersion rmap health miners u = Except.ok row) :
    row.url = u ∧
      row.online = ((health u).1.isDict && (health u).2.isNone) := by
  unfold scanRow at h
  rw [except_bind_ok] at h
  obtain ⟨key, hkey, h⟩ := h
  have hrow : mkScanRow seed networkVersion rmap health miners u key = row := by
    injection h
  subst hrow
  exact ⟨rfl, rfl⟩

/-- C6 amended: for every queried candidate, the produced node row carries
the candidate url and its online flag is true exactly when the health fetch
returned a JSON object (dict) and the fetch error component is null. -/
theorem C6_online_amended (seedRaw : String) (regRows : List RegRow)
    (extras : List String) (health miners : String → PyVal × Option String)
    (rows : List NodeRow)
    (h : buildNodeRows seedRaw regRows extras health miners = Except.ok rows) :
    ∃ seed urls, normalize_base_url seedRaw = Except.ok seed ∧
      _dedupe_preserve (discoveredUrls seed regRows extras) = Except.ok urls ∧
      urls.length ≤ rows.length ∧
      ∀ i (hi : i < urls.length) (hr : i < rows.length),
        (rows.get ⟨i, hr⟩).url = urls.get ⟨i, hi⟩ ∧
        (rows.get ⟨i, hr⟩).online =
          ((health (urls.get ⟨i, hi⟩)).1.isDict &&
            (health (urls.get ⟨i, hi⟩)).2.isNone) := by
  unfold buildNodeRows at h
  rw [except_bind_ok] at h
  obtain ⟨seed, hseed, h⟩ := h
  rw [except_bind_ok] at h
  obtain ⟨rmap, hrmap, h⟩ := h
  rw [except_bind_ok] at h
  obtain ⟨urls, hurls, h⟩ := h
  rw [except_bind_ok] at h
  obtain ⟨scanRows, hscan, h⟩ := h
  rw [except_bind_ok] at h
  obtain ⟨skeys, hskeys, h⟩ := h
  rw [except_bind_ok] at h
  obtain ⟨extraRows, hextra, h⟩ := h
  have hrows : scanRows ++ extraRows = rows := by injection h
  subst hrows
  obtain ⟨hlen, hpt⟩ := mapM_ok_char _ urls scanRows hscan
  refine ⟨seed, urls, hseed, hurls, ?_, ?_⟩
  · rw [List.length_append, hlen]
    exact Nat.le_add_right _ _
  · intro i hi hr
    have hiscan : i < scanRows.length := by rw [hlen]; exact hi
    have hget : ((scanRows ++ extraRows).get ⟨i, hr⟩) = scanRows.get ⟨i, hiscan⟩ :=
      List.get_append i hiscan
    obtain ⟨hurl, honline⟩ := scanRow_ok (hpt i hi hiscan)
    rw [hget]
    exact ⟨hurl, honline⟩

/-- Witness for C6 amended at a concrete run: the seed is queried once and
its row records online false for a JSON array payload with a null error. -/
theorem C6_online_amended_witness :
    ∃ seed urls, normalize_base_url "https://seed" = Except.ok seed ∧
      _dedupe_preserve (discoveredUrls seed [] []) = Except.ok urls ∧
      urls.length ≤ cexSeedRowList.length ∧
      ∀ i (hi : i < urls.length) (hr : i < cexSeedRowList.length),
        (cexSeedRowList.get ⟨i, hr⟩).url = urls.get ⟨i, hi⟩ ∧
        (cexSeedRowList.get ⟨i, hr⟩).online =
          ((cexFetchListOk (urls.get ⟨i, hi⟩)).1.isDict &&
            (cexFetchListOk (urls.get ⟨i, hi⟩)).2.isNone) :=
  C6_online_amended "https://seed" [] [] cexFetchListOk cexFetchErr cexSeedRowList rfl

theorem char_eq_iff_toNat (c d : Char) : c = d ↔ c.toNat = d.toNat := by
  constructor
  · intro h
    rw [h]
  · intro h
    exact Char.ext (UInt32.ext h)

theorem isAlpha_range {c : Char} (h : c.isAlpha = true) :
    (65 ≤ c.toNat ∧ c.toNat ≤ 90) ∨ (97 ≤ c.toNat ∧ c.toNat ≤ 122) := by
  simp only [Char.isAlpha, Char.isUpper, Char.isLower, Bool.or_eq_true, Bool.and_eq_true,
    decide_eq_true_eq] at h
  rcases h with ⟨h1, h2⟩ | ⟨h1, h2⟩
  · exact Or.inl ⟨h1, h2⟩
  · exact Or.inr ⟨h1, h2⟩

theorem isDigit_range {c : Char} (h : c.isDigit = true) :
    48 ≤ c.toNat ∧ c.toNat ≤ 57 := by
  simp only [Char.isDigit, Bool.and_eq_true, decide_eq_true_eq] at h
  exact ⟨h.1, h.2⟩

theorem schemeChar_range {c : Char} (h : schemeChar c = true) : inPlainRange c.toNat := by
  simp only [schemeChar, Bool.or_eq_true, decide_eq_true_eq] at h
  rcases h with ha | hd | hp | hm | hdot
  · rcases isAlpha_range ha with h1 | h1
    · exact Or.inl h1
    · exact Or.inr (Or.inl h1)
  · exact Or.inr (Or.inr (Or.inl (isDigit_range hd)))
  · subst hp
    exact Or.inr (Or.inr (Or.inr (Or.inl rfl)))
  · subst hm
    exact Or.inr (Or.inr (Or.inr (Or.inr (Or.inl rfl))))
  · subst hdot
    exact Or.inr (Or.inr (Or.inr (Or.inr (Or.inr (Or.inl rfl)))))

theorem hostChar_range {c : Char} (h : hostChar c = true) : inPlainRange c.toNat := by
  simp only [hostChar, Bool.or_eq_true, decide_eq_true_eq] at h
  rcases h with ha | hd | hdot | hm
  · rcases isAlpha_range ha with h1 | h1
    · exact Or.inl h1
    · exact Or.inr (Or.inl h1)
  · exact Or.inr (Or.inr (Or.inl (isDigit_range hd)))
  · subst hdot
    exact Or.inr (Or.inr (Or.inr (Or.inr (Or.inr (Or.inl rfl)))))
  · subst hm
    exact Or.inr (Or.inr (Or.inr (Or.inr (Or.inl rfl))))

theorem plainNetChar_range {c : Char} (h : plainNetChar c = true) : inPlainRange c.toNat := by
  simp only [plainNetChar, Bool.or_eq_true, decide_eq_true_eq] at h
  rcases h with hh | hcolon
  · exact hostChar_range hh
  · subst hcolon
    exact Or.inr (Or.inr (Or.inr (Or.inr (Or.inr (Or.inr rfl)))))

/-- All the single-character facts the urlsplit computation needs about a
character in the plain range. -/
theorem plain_range_facts {c : Char} (hr : inPlainRange c.toNat) :
    netlocChar c = true ∧ tabCrLf c = false ∧ c0OrSpace c = false ∧ pyWS c = false ∧
      ¬(c = '[') ∧ ¬(c = ']') ∧ ¬(c = '@') ∧ ¬(c = '/') ∧ ¬(c = '#') ∧ ¬(c = '?') ∧
      ¬(c = ';') := by
  refine ⟨?_, ?_, ?_, ?_, ?_, ?_, ?_, ?_, ?_, ?_, ?_⟩
  · simp only [netlocChar, decide_eq_true_eq]
    push_neg
    refine ⟨?_, ?_, ?_⟩ <;> rintro rfl <;> exact absurd hr (by decide)
  · simp only [tabCrLf, decide_eq_false_iff_not]
    push_neg
    refine ⟨?_, ?_, ?_⟩ <;> rintro rfl <;> exact absurd hr (by decide)
  · simp only [c0OrSpace, decide_eq_false_iff_not]
    unfold inPlainRange at hr
    omega
  · simp only [pyWS, decide_eq_false_iff_not]
    push_neg
    refine ⟨?_, ?_, ?_, ?_, ?_, ?_⟩ <;> rintro rfl <;> exact absurd hr (by decide)
  all_goals rintro rfl
  all_goals exact absurd hr (by decide)

theorem schemeChar_ne_colon {c : Char} (h : schemeChar c = true) : ¬(c = ':') := by
  rintro rfl
  exact absurd h (by decide)

theorem hostChar_ne_colon {c : Char} (h : hostChar c = true) : ¬(c = ':') := by
  rintro rfl
  exact absurd h (by decide)

theorem toNat_ofNat_small {n : Nat} (h1 : n ≤ 122) : (Char.ofNat n).toNat = n := by
  unfold Char.ofNat
  rw [dif_pos (by left; omega : n.isValidChar)]
  unfold Char.ofNatAux Char.toNat
  show (UInt32.ofNatCore n _).toNat = n
  unfold UInt32.ofNatCore UInt32.toNat
  simp [BitVec.toNat_ofNatLt]

theorem lowerChar_alpha {c : Char} (h : c.isAlpha = true) :
    (lowerChar c).isAlpha = true := by
  unfold lowerChar
  split
  · rename_i hc
    have h1n : (65 : Nat) ≤ c.toNat := hc.1
    have h2n : c.toNat ≤ 90 := hc.2
    have hval : (Char.ofNat (c.toNat + 32)).toNat = c.toNat + 32 :=
      toNat_ofNat_small (by omega)
    simp only [Char.isAlpha, Char.isLower, Char.isUpper, Bool.or_eq_true, Bool.and_eq_true,
      decide_eq_true_eq]
    refine Or.inr ⟨?_, ?_⟩
    · show (97 : Nat) ≤ (Char.ofNat (c.toNat + 32)).toNat
      omega
    · show (Char.ofNat (c.toNat + 32)).toNat ≤ 122
      omega
  · exact h

theorem lowerChar_schemeChar {c : Char} (h : schemeChar c = true) :
    schemeChar (lowerChar c) = true := by
  simp only [schemeChar, Bool.or_eq_true, decide_eq_true_eq] at h ⊢
  rcases h with ha | hd | hp | hm | hdot
  · exact Or.inl (lowerChar_alpha ha)
  · have hn := isDigit_range hd
    have : lowerChar c = c := by
      unfold lowerChar
      rw [if_neg]
      intro hc
      have : (65 : Nat) ≤ c.toNat := hc.1
      omega
    rw [this]
    exact Or.inr (Or.inl hd)
  · subst hp
    exact Or.inr (Or.inr (Or.inl (by decide)))
  · subst hm
    exact Or.inr (Or.inr (Or.inr (Or.inl (by decide))))
  · subst hdot
    exact Or.inr (Or.inr (Or.inr (Or.inr (by decide))))

theorem lowerChar_idem (c : Char) : lowerChar (lowerChar c) = lowerChar c := by
  unfold lowerChar
  split
  · rename_i hc
    have h1n : (65 : Nat) ≤ c.toNat := hc.1
    have h2n : c.toNat ≤ 90 := hc.2
    have hval : (Char.ofNat (c.toNat + 32)).toNat = c.toNat + 32 :=
      toNat_ofNat_small (by omega)
    rw [if_neg]
    intro hA
    have hup : (65 : Nat) ≤ (Char.ofNat (c.toNat + 32)).toNat := hA.1
    have hlo : (Char.ofNat (c.toNat + 32)).toNat ≤ 90 := hA.2
    omega
  · rfl

theorem takeWhile_append_all (p : Char → Bool) (a b : List Char)
    (h : ∀ c ∈ a, p c = true) : (a ++ b).takeWhile p = a ++ b.takeWhile p := by
  induction a with
  | nil => rfl
  | cons c a ih =>
    rw [List.cons_append, List.takeWhile_cons, if_pos (h c (List.mem_cons_self c a)),
      ih (fun x hx => h x (List.mem_cons_of_mem c hx)), List.cons_append]

theorem dropWhile_append_all (p : Char → Bool) (a b : List Char)
    (h : ∀ c ∈ a, p c = true) : (a ++ b).dropWhile p = b.dropWhile p := by
  induction a with
  | nil => rfl
  | cons c a ih =>
    rw [List.cons_append, List.dropWhile_cons, if_pos (h c (List.mem_cons_self c a))]
    exact ih (fun x hx => h x (List.mem_cons_of_mem c hx))

theorem takeWhile_all (p : Char → Bool) (a : List Char)
    (h : ∀ c ∈ a, p c = true) : a.takeWhile p = a := by
  have h2 := takeWhile_append_all p a [] h
  simpa using h2

theorem dropWhile_all_neg (p : Char → Bool) (a : List Char)
    (h : ∀ c ∈ a, p c = false) : a.dropWhile p = a := by
  cases a with
  | nil => rfl
  | cons c a =>
    have hc := h c (List.mem_cons_self c a)
    rw [List.dropWhile_cons, if_neg (by simp [hc])]

theorem dropWhile_append_not_nil (p : Char → Bool) : ∀ (a b : List Char),
    a.dropWhile p ≠ [] → (a ++ b).dropWhile p = a.dropWhile p ++ b := by
  intro a
  induction a with
  | nil => intro b h; exact absurd rfl h
  | cons c a ih =>
    intro b h
    rw [List.dropWhile_cons] at h
    by_cases hc : p c = true
    · rw [if_pos hc] at h
      rw [List.cons_append, List.dropWhile_cons, List.dropWhile_cons, if_pos hc, if_pos hc]
      exact ih b h
    · rw [if_neg hc] at h
      rw [List.cons_append, List.dropWhile_cons, List.dropWhile_cons, if_neg hc, if_neg hc,
        List.cons_append]

theorem dropWhile_all (p : Char → Bool) (a : List Char) (h : ∀ c ∈ a, p c = true) :
    a.dropWhile p = [] := by
  have h2 := dropWhile_append_all p a [] h
  simpa using h2

theorem head_dropWhile_false (p : Char → Bool) : ∀ (a : List Char) (c : Char),
    (a.dropWhile p).head? = Option.some c → p c = false := by
  intro a
  induction a with
  | nil => intro c h; simp [List.dropWhile] at h
  | cons d a ih =>
    intro c h
    rw [List.dropWhile_cons] at h
    by_cases hd : p d = true
    · rw [if_pos hd] at h
      exact ih c h
    · rw [if_neg hd] at h
      simp only [List.head?_cons, Option.some.injEq] at h
      subst h
      simpa using hd

theorem rstripSlash_eq_self (l : List Char) (h : ∀ c ∈ l, ¬(c = '/')) :
    rstripSlash l = l := by
  unfold rstripSlash
  rw [dropWhile_all_neg _ _ (fun c hc => decide_eq_false (h c (List.mem_reverse.mp hc))),
    List.reverse_reverse]

theorem rstripSlash_append (a b : List Char) :
    rstripSlash (a ++ b) =
      if rstripSlash b = [] then rstripSlash a else a ++ rstripSlash b := by
  unfold rstripSlash
  rw [List.reverse_append]
  by_cases hb : (b.reverse.dropWhile (fun c => c = '/')) = []
  · have hcond : (b.reverse.dropWhile (fun c => c = '/')).reverse = [] := by
      rw [hb]; rfl
    rw [if_pos hcond]
    have hall : ∀ c ∈ b.reverse, (fun c => (decide (c = '/'))) c = true := by
      intro c hc
      exact List.dropWhile_eq_nil_iff.mp hb c hc
    rw [dropWhile_append_all _ _ _ hall]
  · have hcond : ¬((b.reverse.dropWhile (fun c => c = '/')).reverse = []) :=
      fun hh => hb (List.reverse_eq_nil_iff.mp hh)
    rw [if_neg hcond, dropWhile_append_not_nil _ _ _ hb, List.reverse_append,
      List.reverse_reverse]

theorem rstripSlash_getLast (l : List Char) (c : Char)
    (h : (rstripSlash l).getLast? = Option.some c) : ¬(c = '/') := by
  unfold rstripSlash at h
  rw [List.getLast?_reverse] at h
  have h2 := head_dropWhile_false _ _ _ h
  simpa using h2

theorem take_len_append (a b : List Char) : (a ++ b).take a.length = a := by
  induction a with
  | nil => rfl
  | cons c a ih => rw [List.cons_append, List.length_cons, List.take_succ_cons, ih]

theorem pyStripChars_eq_self (l : List Char) (h : ∀ c ∈ l, pyWS c = false) :
    pyStripChars l = l := by
  unfold pyStripChars
  rw [dropWhile_all_neg _ _ h,
    dropWhile_all_neg _ _ (fun c hc => h c (List.mem_reverse.mp hc)),
    List.reverse_reverse]

theorem isPrefixOf_append_self : ∀ (pat x : List Char), pat.isPrefixOf (pat ++ x) = true := by
  intro pat
  induction pat with
  | nil =>
    intro x
    simp [List.isPrefixOf]
  | cons c pat ih =>
    intro x
    simp [List.isPrefixOf, ih]

theorem hasSubstr_of_suffix : ∀ (a t pat : List Char), pat.isPrefixOf t = true →
    hasSubstr (a ++ t) pat = true := by
  intro a
  induction a with
  | nil =>
    intro t pat h
    cases t with
    | nil =>
      have hp : pat = [] := by simpa using h
      subst hp
      rfl
    | cons c t =>
      simp only [List.nil_append, hasSubstr, decide_eq_true_eq]
      exact Or.inl h
  | cons c a ih =>
    intro t pat h
    rw [List.cons_append]
    simp only [hasSubstr, decide_eq_true_eq]
    exact Or.inr (ih t pat h)

theorem afterLastAt_eq_self (l : List Char) (h : ∀ c ∈ l, ¬(c = '@')) :
    afterLastAt l = l := by
  unfold afterLastAt
  rw [takeWhile_all _ _ (fun c hc => decide_eq_true (h c (List.mem_reverse.mp hc))),
    List.reverse_reverse]


theorem schemeStr_head_alpha {s : List Char} (hs : SchemeStr s) :
    ∃ c0 s2, s = c0 :: s2 ∧ c0.isAlpha = true := by
  obtain ⟨hne, _, hal⟩ := hs
  cases s with
  | nil => exact absurd rfl hne
  | cons c0 s2 =>
    refine ⟨c0, s2, rfl, ?_⟩
    simpa [List.take, List.all_cons] using hal

theorem scheme_mem_facts {s : List Char} (hs : ∀ c ∈ s, schemeChar c = true) :
    (∀ c ∈ s, pyWS c = false) ∧ (∀ c ∈ s, tabCrLf c = false) ∧
    (∀ c ∈ s, c0OrSpace c = false) ∧ (∀ c ∈ s, ¬(c = ':')) := by
  refine ⟨?_, ?_, ?_, ?_⟩ <;> intro c hc
  · exact (plain_range_facts (schemeChar_range (hs c hc))).2.2.2.1
  · exact (plain_range_facts (schemeChar_range (hs c hc))).2.1
  · exact (plain_range_facts (schemeChar_range (hs c hc))).2.2.1
  · exact schemeChar_ne_colon (hs c hc)

theorem plain_mem_facts {l : List Char} (hl : ∀ c ∈ l, plainNetChar c = true) :
    (∀ c ∈ l, pyWS c = false) ∧ (∀ c ∈ l, tabCrLf c = false) ∧
    (∀ c ∈ l, c0OrSpace c = false) ∧ (∀ c ∈ l, netlocChar c = true) ∧
    (∀ c ∈ l, ¬(c = '[')) ∧ (∀ c ∈ l, ¬(c = ']')) ∧
    (∀ c ∈ l, ¬(c = '@')) ∧ (∀ c ∈ l, ¬(c = '/')) := by
  refine ⟨?_, ?_, ?_, ?_, ?_, ?_, ?_, ?_⟩ <;> intro c hc
  · exact (plain_range_facts (plainNetChar_range (hl c hc))).2.2.2.1
  · exact (plain_range_facts (plainNetChar_range (hl c hc))).2.1
  · exact (plain_range_facts (plainNetChar_range (hl c hc))).2.2.1
  · exact (plain_range_facts (plainNetChar_range (hl c hc))).1
  · exact (plain_range_facts (plainNetChar_range (hl c hc))).2.2.2.2.1
  · exact (plain_range_facts (plainNetChar_range (hl c hc))).2.2.2.2.2.1
  · exact (plain_range_facts (plainNetChar_range (hl c hc))).2.2.2.2.2.2.1
  · exact (plain_range_facts (plainNetChar_range (hl c hc))).2.2.2.2.2.2.2.1

theorem urlsplit_plain (s nl tl : List Char) (hs : SchemeStr s)
    (hnl : ∀ c ∈ nl, plainNetChar c = true) (htl : tl = [] ∨ tl = ['/']) :
    urlsplit (s ++ (':' :: '/' :: '/' :: (nl ++ tl))) =
      Except.ok ⟨s.map lowerChar, nl, tl, [], [], []⟩ := by
  obtain ⟨hne, hsc, hal⟩ := hs
  obtain ⟨hWS, hTab, hC0, hCol⟩ := scheme_mem_facts hsc
  obtain ⟨hnWS, hnTab, hnC0, hnNet, hnLB, hnRB, hnAt, hnSl⟩ := plain_mem_facts hnl
  have htlc : ∀ c ∈ tl, c = '/' := by
    rcases htl with rfl | rfl
    · intro c hc
      simp at hc
    · intro c hc
      simpa using hc
  have hLc0 : ∀ c ∈ s ++ (':' :: '/' :: '/' :: (nl ++ tl)), c0OrSpace c = false := by
    intro c hc
    rcases List.mem_append.mp hc with h1 | h1
    · exact hC0 c h1
    · simp only [List.mem_cons, List.mem_append] at h1
      rcases h1 with rfl | rfl | rfl | h1 | h1
      · decide
      · decide
      · decide
      · exact hnC0 c h1
      · rw [htlc c h1]
        decide
  have hLtab : ∀ c ∈ s ++ (':' :: '/' :: '/' :: (nl ++ tl)), tabCrLf c = false := by
    intro c hc
    rcases List.mem_append.mp hc with h1 | h1
    · exact hTab c h1
    · simp only [List.mem_cons, List.mem_append] at h1
      rcases h1 with rfl | rfl | rfl | h1 | h1
      · decide
      · decide
      · decide
      · exact hnTab c h1
      · rw [htlc c h1]
        decide
  have hdrop := dropWhile_all_neg c0OrSpace _ hLc0
  have hfilt : (s ++ (':' :: '/' :: '/' :: (nl ++ tl))).filter (fun c => ¬ tabCrLf c) =
      s ++ (':' :: '/' :: '/' :: (nl ++ tl)) :=
    List.filter_eq_self.mpr (fun c hc => decide_eq_true (by simp [hLtab c hc]))
  have hpre : (s ++ (':' :: '/' :: '/' :: (nl ++ tl))).takeWhile (fun x => x ≠ ':') = s := by
    rw [takeWhile_append_all _ _ _ (fun c hc => decide_eq_true (hCol c hc)),
      List.takeWhile_cons, if_neg (by decide)]
    simp
  have hdropc : (s ++ (':' :: '/' :: '/' :: (nl ++ tl))).dropWhile (fun x => x ≠ ':') =
      ':' :: '/' :: '/' :: (nl ++ tl) := by
    rw [dropWhile_append_all _ _ _ (fun c hc => decide_eq_true (hCol c hc)),
      List.dropWhile_cons, if_neg (by decide)]
  have hany : (s ++ (':' :: '/' :: '/' :: (nl ++ tl))).any (fun c => c = ':') = true := by
    rw [List.any_eq_true]
    exact ⟨':', List.mem_append_right _ (List.mem_cons_self _ _), by decide⟩
  have htake : (nl ++ tl).takeWhile netlocChar = nl := by
    rw [takeWhile_append_all _ _ _ hnNet]
    rcases htl with rfl | rfl
    · simp
    · rw [List.takeWhile_cons, if_neg (by decide)]
      simp
  have hdropn : (nl ++ tl).dropWhile netlocChar = tl := by
    rw [dropWhile_append_all _ _ _ hnNet]
    rcases htl with rfl | rfl
    · rfl
    · rw [List.dropWhile_cons, if_neg (by decide)]
  have hlb : decide ('[' ∈ nl) = false := decide_eq_false (fun hm => (hnLB '[' hm) rfl)
  have hrb : decide (']' ∈ nl) = false := decide_eq_false (fun hm => (hnRB ']' hm) rfl)
  have hcond1 : (((s ++ ':' :: '/' :: '/' :: (nl ++ tl)).any fun c => decide (c = ':')) = true ∧
      s ≠ [] ∧ s.all schemeChar = true ∧ (List.take 1 s).all Char.isAlpha = true) :=
    ⟨hany, hne, List.all_eq_true.mpr hsc, hal⟩
  simp only [urlsplit]
  rw [hdrop, hfilt, hpre, hdropc]
  rw [if_pos hcond1]
  simp only [List.drop_succ_cons, List.drop_zero, List.take_succ_cons, List.take_zero]
  simp only [if_pos trivial, htake, hdropn, hlb, hrb]
  rw [if_neg (by simp : ¬((false : Bool) ≠ false))]
  rcases htl with rfl | rfl
  · rfl
  · rfl


theorem tl_mem_slash {tl : List Char} (htl : tl = [] ∨ tl = ['/']) : ∀ c ∈ tl, c = '/' := by
  rcases htl with rfl | rfl
  · intro c hc
    simp at hc
  · intro c hc
    simpa using hc

theorem schemeStr_map_lower {s : List Char} (hs : SchemeStr s) : SchemeStr (s.map lowerChar) := by
  obtain ⟨hne, hsc, hal⟩ := hs
  refine ⟨by simp [hne], ?_, ?_⟩
  · intro c hc
    rcases List.mem_map.mp hc with ⟨d, hd, rfl⟩
    exact lowerChar_schemeChar (hsc d hd)
  · cases s with
    | nil => exact absurd rfl hne
    | cons c0 s2 =>
      have hc0 : c0.isAlpha = true := by simpa [List.take, List.all_cons] using hal
      simpa [List.take, List.all_cons, List.map_cons] using lowerChar_alpha hc0

theorem urlparse_plain (s nl tl : List Char) (hs : SchemeStr s)
    (hnl : ∀ c ∈ nl, plainNetChar c = true) (htl : tl = [] ∨ tl = ['/']) :
    urlparse (s ++ (':' :: '/' :: '/' :: (nl ++ tl))) =
      Except.ok ⟨s.map lowerChar, nl, tl, [], [], []⟩ := by
  have h := urlsplit_plain s nl tl hs hnl htl
  unfold urlparse
  rw [h]
  rcases htl with rfl | rfl
  · rfl
  · rfl

theorem urlsplit_error (u : List Char) (e : String) (h : urlsplit u = Except.error e) :
    e = "Invalid IPv6 URL" := by
  simp only [urlsplit] at h
  split at h
  all_goals try split at h
  all_goals try split at h
  all_goals try exact Except.noConfusion h
  all_goals injection h with h2
  all_goals exact h2.symm

theorem urlparse_error (u : List Char) (e : String) (h : urlparse u = Except.error e) :
    e = "Invalid IPv6 URL" := by
  unfold urlparse at h
  split at h
  · rename_i e2 hu
    injection h with h2
    rw [← h2]
    exact urlsplit_error u e2 hu
  · rename_i r hu
    split at h
    · exact Except.noConfusion h
    · exact Except.noConfusion h


theorem normalize_plain (s nl tl : List Char) (hs : SchemeStr s)
    (hnlne : nl ≠ []) (hnl : ∀ c ∈ nl, plainNetChar c = true)
    (htl : tl = [] ∨ tl = ['/']) :
    normalize_base_url (String.mk (s ++ (':' :: '/' :: '/' :: (nl ++ tl)))) =
      Except.ok (String.mk (s.map lowerChar ++ "://".data ++ nl)) := by
  obtain ⟨hWS, hTab, hC0, hCol⟩ := scheme_mem_facts hs.2.1
  obtain ⟨hnWS, hnTab, hnC0, hnNet, hnLB, hnRB, hnAt, hnSl⟩ := plain_mem_facts hnl
  have hLWS : ∀ c ∈ s ++ (':' :: '/' :: '/' :: (nl ++ tl)), pyWS c = false := by
    intro c hc
    rcases List.mem_append.mp hc with h1 | h1
    · exact hWS c h1
    · simp only [List.mem_cons, List.mem_append] at h1
      rcases h1 with rfl | rfl | rfl | h1 | h1
      · decide
      · decide
      · decide
      · exact hnWS c h1
      · rw [tl_mem_slash htl c h1]
        decide
  have hsub : hasSubstr (s ++ (':' :: '/' :: '/' :: (nl ++ tl))) "://".data = true :=
    hasSubstr_of_suffix s _ _ (isPrefixOf_append_self "://".data (nl ++ tl))
  have hrs : rstripSlash (s.map lowerChar ++ "://".data ++ nl) =
      s.map lowerChar ++ "://".data ++ nl := by
    rw [rstripSlash_append, rstripSlash_eq_self nl hnSl, if_neg hnlne]
  unfold normalize_base_url
  rw [show (String.mk (s ++ (':' :: '/' :: '/' :: (nl ++ tl)))).data =
      s ++ (':' :: '/' :: '/' :: (nl ++ tl)) from rfl]
  rw [pyStripChars_eq_self _ hLWS]
  rw [if_neg (by simp : ¬(s ++ (':' :: '/' :: '/' :: (nl ++ tl)) = []))]
  rw [if_pos hsub]
  simp only [urlparse_plain s nl tl hs hnl htl]
  rw [if_neg (by simp [hs.1] : ¬(s.map lowerChar = []))]
  rw [if_neg hnlne]
  rw [hrs]

theorem node_identity_plain (s hst pp tl : List Char) (hs : SchemeStr s)
    (hh : PlainHost hst) (hpp : PortPart pp) (htl : tl = [] ∨ tl = ['/']) :
    node_identity (String.mk (s ++ (':' :: '/' :: '/' :: ((hst ++ pp) ++ tl)))) =
      Except.ok (String.mk (hst.map lowerChar ++
        (':' :: (Nat.repr (portOfPlain (s.map lowerChar) pp)).data))) := by
  obtain ⟨hhne, hhc⟩ := hh
  have hnl : ∀ c ∈ hst ++ pp, plainNetChar c = true := by
    intro c hc
    rcases List.mem_append.mp hc with h1 | h1
    · simp only [plainNetChar, Bool.or_eq_true, decide_eq_true_eq]
      exact Or.inl (hhc c h1)
    · rcases hpp with rfl | ⟨d, rfl, hdne, hdig, n, hn, hv⟩
      · simp at h1
      · simp only [List.mem_cons] at h1
        rcases h1 with rfl | h1
        · decide
        · simp only [plainNetChar, hostChar, Bool.or_eq_true, decide_eq_true_eq]
          exact Or.inl (Or.inr (Or.inl (hdig c h1)))
  obtain ⟨hnWS, hnTab, hnC0, hnNet, hnLB, hnRB, hnAt, hnSl⟩ := plain_mem_facts hnl
  have hcolh : ∀ c ∈ hst, (fun c => decide (c ≠ ':')) c = true :=
    fun c hc => decide_eq_true (hostChar_ne_colon (hhc c hc))
  have hhp : hostPort (hst ++ pp) = (hst, pp.drop 1) := by
    unfold hostPort
    rw [afterLastAt_eq_self _ hnAt]
    rw [if_neg (fun hm => (hnLB '[' hm) rfl)]
    rcases hpp with rfl | ⟨d, rfl, hdne, hdig, n, hn, hv⟩
    · rw [List.append_nil, takeWhile_all _ _ hcolh, dropWhile_all _ _ hcolh]
    · rw [takeWhile_append_all _ _ _ hcolh, List.takeWhile_cons, if_neg (by decide),
        List.append_nil, dropWhile_append_all _ _ _ hcolh, List.dropWhile_cons,
        if_neg (by decide)]
  have hhn : hostnameOf (hst ++ pp) = Option.some (hst.map lowerChar) := by
    simp [hostnameOf, hhp, hhne]
  unfold node_identity
  rw [show (String.mk (s ++ (':' :: '/' :: '/' :: ((hst ++ pp) ++ tl)))).data =
      s ++ (':' :: '/' :: '/' :: ((hst ++ pp) ++ tl)) from rfl]
  simp only [urlparse_plain s (hst ++ pp) tl hs hnl htl]
  rw [hhn]
  rcases hpp with rfl | ⟨d, rfl, hdne, hdig, n, hn, hv⟩
  · have hpo : portOf (hst ++ []) = Except.ok Option.none := by
      simp only [portOf, hhp, List.drop_nil]
      rfl
    rw [hpo]
    rfl
  · have hc : (0 : Int) ≤ (n : Int) ∧ (n : Int) ≤ 65535 :=
      ⟨Int.natCast_nonneg n, by exact_mod_cast hn⟩
    have hpo : portOf (hst ++ ':' :: d) = Except.ok (Option.some n) := by
      simp only [portOf, hhp, List.drop_succ_cons, List.drop_zero, if_neg hdne, hv]
      rw [if_pos hc]
      simp
    rw [hpo]
    simp [portOfPlain, hv]



theorem hostport_plain_chars {hst pp : List Char} (hh : PlainHost hst) (hpp : PortPart pp) :
    ∀ c ∈ hst ++ pp, plainNetChar c = true := by
  intro c hc
  rcases List.mem_append.mp hc with h1 | h1
  · simp only [plainNetChar, Bool.or_eq_true, decide_eq_true_eq]
    exact Or.inl (hh.2 c h1)
  · rcases hpp with rfl | ⟨d, rfl, hdne, hdig, n, hn, hv⟩
    · simp at h1
    · simp only [List.mem_cons] at h1
      rcases h1 with rfl | h1
      · decide
      · simp only [plainNetChar, hostChar, Bool.or_eq_true, decide_eq_true_eq]
        exact Or.inl (Or.inr (Or.inl (hdig c h1)))

theorem urlsplit_https_prepend (t : List Char) (p : ParseResult)
    (h : urlsplit ('h' :: 't' :: 't' :: 'p' :: 's' :: ':' :: '/' :: '/' :: t) = Except.ok p) :
    p.scheme = "https".data := by
  have hq : ('h' :: 't' :: 't' :: 'p' :: 's' :: ':' :: '/' :: '/' :: t).dropWhile c0OrSpace =
      'h' :: 't' :: 't' :: 'p' :: 's' :: ':' :: '/' :: '/' :: t := rfl
  have hf : ('h' :: 't' :: 't' :: 'p' :: 's' :: ':' :: '/' :: '/' :: t).filter
        (fun c => ¬ tabCrLf c) =
      'h' :: 't' :: 't' :: 'p' :: 's' :: ':' :: '/' :: '/' ::
        (t.filter (fun c => ¬ tabCrLf c)) := rfl
  have hpre : ∀ u : List Char,
      ('h' :: 't' :: 't' :: 'p' :: 's' :: ':' :: u).takeWhile (fun x => x ≠ ':') =
        "https".data := fun u => rfl
  have hdc : ∀ u : List Char,
      ('h' :: 't' :: 't' :: 'p' :: 's' :: ':' :: u).dropWhile (fun x => x ≠ ':') =
        ':' :: u := fun u => rfl
  have hany : ∀ u : List Char,
      (('h' :: 't' :: 't' :: 'p' :: 's' :: ':' :: u).any fun c => decide (c = ':')) = true :=
    fun u => rfl
  simp only [urlsplit] at h
  rw [hq, hf, hpre, hdc, hany] at h
  have hcond : (true = true ∧ ("https".data : List Char) ≠ [] ∧
      ("https".data : List Char).all schemeChar = true ∧
      (List.take 1 ("https".data : List Char)).all Char.isAlpha = true) :=
    ⟨rfl, by decide, by decide, by decide⟩
  rw [if_pos hcond] at h
  rw [show ("https".data : List Char).map lowerChar = "https".data from rfl] at h
  split at h
  all_goals try split at h
  all_goals try exact Except.noConfusion h
  all_goals injection h with h2
  all_goals rw [← h2]

theorem urlparse_scheme (u : List Char) (p : ParseResult) (h : urlparse u = Except.ok p) :
    ∃ r, urlsplit u = Except.ok r ∧ p.scheme = r.scheme := by
  unfold urlparse at h
  split at h
  · exact Except.noConfusion h
  · rename_i r hu
    refine ⟨r, hu, ?_⟩
    split at h
    · injection h with h2
      rw [← h2]
    · injection h with h2
      rw [← h2]

theorem urlparse_https_prepend (t : List Char) (p : ParseResult)
    (h : urlparse ('h' :: 't' :: 't' :: 'p' :: 's' :: ':' :: '/' :: '/' :: t) = Except.ok p) :
    p.scheme = "https".data := by
  obtain ⟨r, hr, hsch⟩ := urlparse_scheme _ _ h
  rw [hsch]
  exact urlsplit_https_prepend t r hr

theorem rstripSlash_ne_nil (l : List Char) (c : Char) (hc : c ∈ l) (hne : ¬(c = '/')) :
    rstripSlash l ≠ [] := by
  unfold rstripSlash
  intro hh
  have h2 := List.reverse_eq_nil_iff.mp hh
  have h3 := List.dropWhile_eq_nil_iff.mp h2 c (List.mem_reverse.mpr hc)
  simp at h3
  exact hne h3

theorem https_take6 (nloc : List Char) :
    (rstripSlash ("https".data ++ "://".data ++ nloc)).take 6 = "https:".data := by
  have hassoc : ("https".data : List Char) ++ "://".data ++ nloc =
      "https:".data ++ ('/' :: '/' :: nloc) := by
    rw [List.append_assoc]
    rfl
  rw [hassoc, rstripSlash_append]
  by_cases hb : rstripSlash ('/' :: '/' :: nloc) = []
  · rw [if_pos hb]
    decide
  · rw [if_neg hb]
    exact take_len_append "https:".data (rstripSlash ('/' :: '/' :: nloc))

theorem normalize_blank (raw : String) (h : pyStripChars raw.data = []) :
    normalize_base_url raw = Except.ok "" := by
  simp only [normalize_base_url]
  rw [if_pos h]

theorem normalize_error_msg (raw : String) (e : String)
    (h : normalize_base_url raw = Except.error e) : e = "Invalid IPv6 URL" := by
  simp only [normalize_base_url] at h
  split at h
  · exact Except.noConfusion h
  · split at h
    · rename_i e2 hp
      injection h with h2
      rw [← h2]
      exact urlparse_error _ _ hp
    · exact Except.noConfusion h

theorem normalize_ok_shape (raw : String) (s : String)
    (h : normalize_base_url raw = Except.ok s) :
    (pyStripChars raw.data = [] ∧ s = "") ∨
    (pyStripChars raw.data ≠ [] ∧ ∃ p,
      urlparse (if hasSubstr (pyStripChars raw.data) "://".data then pyStripChars raw.data
        else "https://".data ++ pyStripChars raw.data) = Except.ok p ∧
      s.data = rstripSlash ((if p.scheme = [] then "https".data else p.scheme) ++ "://".data ++
        (if p.netloc = [] then p.path else p.netloc))) := by
  simp only [normalize_base_url] at h
  split at h
  · rename_i ht
    left
    refine ⟨ht, ?_⟩
    injection h with h2
    exact h2.symm
  · rename_i ht
    right
    refine ⟨ht, ?_⟩
    split at h
    · exact Except.noConfusion h
    · rename_i p hp
      refine ⟨p, hp, ?_⟩
      injection h with h2
      rw [← h2]

theorem normalize_ok_empty_iff (raw : String) (s : String)
    (h : normalize_base_url raw = Except.ok s) : (s = "" ↔ pyStripChars raw.data = []) := by
  rcases normalize_ok_shape raw s h with ⟨ht, rfl⟩ | ⟨ht, p, hp, hdata⟩
  · exact ⟨fun _ => ht, fun _ => rfl⟩
  · constructor
    · intro hs
      exfalso
      subst hs
      have hcol : ':' ∈ ((if p.scheme = [] then "https".data else p.scheme) ++ "://".data ++
          (if p.netloc = [] then p.path else p.netloc)) :=
        List.mem_append.mpr (Or.inl (List.mem_append.mpr (Or.inr (by decide))))
      exact rstripSlash_ne_nil _ ':' hcol (by decide) hdata.symm
    · intro hb
      exact absurd hb ht

theorem normalize_no_trailing_slash (raw : String) (s : String)
    (h : normalize_base_url raw = Except.ok s) : s.data.getLast? ≠ Option.some '/' := by
  rcases normalize_ok_shape raw s h with ⟨_, rfl⟩ | ⟨_, p, _, hdata⟩
  · simp
  · rw [hdata]
    intro hl
    exact rstripSlash_getLast _ _ hl rfl

theorem normalize_secure_scheme (raw : String) (s : String)
    (h : normalize_base_url raw = Except.ok s) (hne : pyStripChars raw.data ≠ [])
    (hnosub : hasSubstr (pyStripChars raw.data) "://".data = false) :
    s.data.take 6 = "https:".data := by
  rcases normalize_ok_shape raw s h with ⟨ht, _⟩ | ⟨ht, p, hp, hdata⟩
  · exact absurd ht hne
  · rw [if_neg (by simp [hnosub])] at hp
    have hps : p.scheme = "https".data := urlparse_https_prepend _ p hp
    rw [hdata, if_neg (by rw [hps]; decide), hps]
    exact https_take6 _


theorem append_plain_assoc (x h p t : List Char) :
    x ++ "://".data ++ h ++ p ++ t = x ++ (':' :: '/' :: '/' :: ((h ++ p) ++ t)) := by
  rw [List.append_assoc (x ++ "://".data) h p, List.append_assoc (x ++ "://".data),
    List.append_assoc x]
  rfl

theorem append_plain_assoc_noport (x h t : List Char) :
    x ++ "://".data ++ h ++ t = x ++ (':' :: '/' :: '/' :: ((h ++ []) ++ t)) := by
  rw [List.append_nil, List.append_assoc (x ++ "://".data), List.append_assoc x]
  rfl

theorem append_plain_assoc_nonl (x nl : List Char) :
    x ++ "://".data ++ nl = x ++ (':' :: '/' :: '/' :: (nl ++ [])) := by
  rw [List.append_nil, List.append_assoc x]
  rfl

/-- C7 (amended): NodeIdentity is invariant under scheme case, trailing slash
and explicitly spelled default ports on plain URLs, and normalization is
idempotent on that family. -/
theorem C7_identity_amended (s1 s2 hst pp tl1 tl2 : List Char)
    (hs1 : SchemeStr s1) (hs2 : SchemeStr s2)
    (hlow : s1.map lowerChar = s2.map lowerChar)
    (hh : PlainHost hst) (hpp : PortPart pp)
    (htl1 : tl1 = [] ∨ tl1 = ['/']) (htl2 : tl2 = [] ∨ tl2 = ['/']) :
    node_identity (String.mk (s1 ++ "://".data ++ hst ++ pp ++ tl1)) =
      node_identity (String.mk (s2 ++ "://".data ++ hst ++ pp ++ tl2)) ∧
    node_identity (String.mk ("https".data ++ "://".data ++ hst ++ (':' :: "443".data) ++ tl1)) =
      node_identity (String.mk ("https".data ++ "://".data ++ hst ++ tl2)) ∧
    (s1.map lowerChar ≠ "https".data →
      node_identity (String.mk (s1 ++ "://".data ++ hst ++ (':' :: "80".data) ++ tl1)) =
        node_identity (String.mk (s1 ++ "://".data ++ hst ++ tl2))) ∧
    normalize_base_url (String.mk (s1 ++ "://".data ++ hst ++ pp ++ tl1)) =
      Except.ok (String.mk (s1.map lowerChar ++ "://".data ++ (hst ++ pp))) ∧
    normalize_base_url (String.mk (s1.map lowerChar ++ "://".data ++ (hst ++ pp))) =
      Except.ok (String.mk (s1.map lowerChar ++ "://".data ++ (hst ++ pp))) := by
  have hs_https : SchemeStr ("https".data : List Char) := ⟨by decide, by decide, by decide⟩
  have hpp443 : PortPart (':' :: "443".data) :=
    Or.inr ⟨"443".data, rfl, by decide, by decide, 443, by decide, by decide⟩
  have hpp80 : PortPart (':' :: "80".data) :=
    Or.inr ⟨"80".data, rfl, by decide, by decide, 80, by decide, by decide⟩
  have hne : hst ++ pp ≠ [] := fun hh2 => hh.1 (List.append_eq_nil.mp hh2).1
  have hchars := hostport_plain_chars hh hpp
  refine ⟨?_, ?_, ?_, ?_, ?_⟩
  · rw [append_plain_assoc s1 hst pp tl1, append_plain_assoc s2 hst pp tl2,
      node_identity_plain s1 hst pp tl1 hs1 hh hpp htl1,
      node_identity_plain s2 hst pp tl2 hs2 hh hpp htl2, hlow]
  · rw [append_plain_assoc "https".data hst (':' :: "443".data) tl1,
      append_plain_assoc_noport "https".data hst tl2,
      node_identity_plain "https".data hst (':' :: "443".data) tl1 hs_https hh hpp443 htl1,
      node_identity_plain "https".data hst [] tl2 hs_https hh (Or.inl rfl) htl2]
    rfl
  · intro hsne
    rw [append_plain_assoc s1 hst (':' :: "80".data) tl1,
      append_plain_assoc_noport s1 hst tl2,
      node_identity_plain s1 hst (':' :: "80".data) tl1 hs1 hh hpp80 htl1,
      node_identity_plain s1 hst [] tl2 hs1 hh (Or.inl rfl) htl2]
    rw [show portOfPlain (s1.map lowerChar) (':' :: "80".data) = 80 from rfl]
    rw [show portOfPlain (s1.map lowerChar) [] = if s1.map lowerChar = "https".data
        then 443 else 80 from rfl]
    rw [if_neg hsne]
  · rw [append_plain_assoc s1 hst pp tl1]
    exact normalize_plain s1 (hst ++ pp) tl1 hs1 hne hchars htl1
  · rw [append_plain_assoc_nonl (s1.map lowerChar) (hst ++ pp)]
    have h2 := normalize_plain (s1.map lowerChar) (hst ++ pp) []
      (schemeStr_map_lower hs1) hne hchars (Or.inl rfl)
    rw [h2]
    have hmm : (s1.map lowerChar).map lowerChar = s1.map lowerChar := by
      rw [List.map_map]
      exact List.map_congr_left (fun x _ => lowerChar_idem x)
    rw [hmm, ← append_plain_assoc_nonl (s1.map lowerChar) (hst ++ pp)]

/-- Witness for C7 at concrete URLs: scheme case and trailing slash, the
explicit default port, and idempotence of normalization on the family. -/
theorem C7_identity_amended_witness :
    node_identity "HTTPS://a" = node_identity "https://a/" ∧
    node_identity "https://a:443" = node_identity "https://a/" ∧
    normalize_base_url "HTTPS://a" = Except.ok "https://a" ∧
    normalize_base_url "https://a" = Except.ok "https://a" := by
  have h := C7_identity_amended "HTTPS".data "https".data ['a'] [] [] ['/']
    ⟨by decide, by decide, by decide⟩ ⟨by decide, by decide, by decide⟩ (by decide)
    ⟨by decide, by decide⟩ (Or.inl rfl) (Or.inl rfl) (Or.inr rfl)
  obtain ⟨h1, h2, _, h4, h5⟩ := h
  exact ⟨h1, h2, h4, h5⟩

/-- C8 (amended): normalization returns the empty string exactly on blank
input, never produces a trailing slash, assumes the secure scheme when no
scheme separator is present, and its only failure mode is the ValueError of
the bracket check (Invalid IPv6 URL); it is not total. -/
theorem C8_normalize_amended (raw : String) :
    (pyStripChars raw.data = [] → normalize_base_url raw = Except.ok "") ∧
    (∀ e, normalize_base_url raw = Except.error e → e = "Invalid IPv6 URL") ∧
    (∀ s, normalize_base_url raw = Except.ok s → (s = "" ↔ pyStripChars raw.data = [])) ∧
    (∀ s, normalize_base_url raw = Except.ok s → s.data.getLast? ≠ Option.some '/') ∧
    (∀ s, normalize_base_url raw = Except.ok s → pyStripChars raw.data ≠ [] →
      hasSubstr (pyStripChars raw.data) "://".data = false →
      s.data.take 6 = "https:".data) :=
  ⟨normalize_blank raw, fun e he => normalize_error_msg raw e he,
   fun s hs => normalize_ok_empty_iff raw s hs,
   fun s hs => normalize_no_trailing_slash raw s hs,
   fun s hs h1 h2 => normalize_secure_scheme raw s hs h1 h2⟩

/-- Witness for C8 at concrete inputs: a schemeless URL with a path gains the
secure scheme, the bracket input fails with the IPv6 message, and whitespace
input normalizes to the empty string. -/
theorem C8_normalize_amended_witness :
    ("https://node.example.com" : String).data.take 6 = "https:".data ∧
    "Invalid IPv6 URL" = "Invalid IPv6 URL" ∧
    normalize_base_url "  " = Except.ok "" :=
  ⟨(C8_normalize_amended "node.example.com/x/").2.2.2.2 "https://node.example.com" (by decide)
      (by decide) (by decide),
   (C8_normalize_amended "[").2.1 "Invalid IPv6 URL" (by decide),
   (C8_normalize_amended "  ").1 (by decide)⟩

end RustChainScan
